import Mathlib

/-!
Verification of the nonogram solving engine (solver.py) and the puzzle data
model (model.py) of the Nonogram-Solver repository.

Cells are machine integers: UNKNOWN = -1, EMPTY = 0, FILLED = 1.  A grid is a
row-major list of rows.  The Python engine mutates grids in place; here every
mutating function returns the new value of the grid it was passed, and the
while-loops of the engine are expressed with an explicit fuel parameter whose
sufficiency is proved separately (the number of non-Unknown cells grows with
every changing pass, so unknown-cell count plus one passes always suffice).
-/

namespace Nonogram

/-- Cell constant UNKNOWN = -1 from solver.py / model.py. -/
def UNKNOWN : Int := -1

/-- Cell constant EMPTY = 0 from solver.py / model.py. -/
def EMPTY : Int := 0

/-- Cell constant FILLED = 1 from solver.py / model.py. -/
def FILLED : Int := 1

abbrev Line := List Int

abbrev Grid := List (List Int)

/-- Embedding of the recursive helper place(idx, pos) inside _line_candidates.
The Python code mutates a shared line buffer (initialised to all EMPTY) and
restores it after each placement; each call here instead returns the list of
completed suffixes for positions pos..length-1, and the caller prepends its own
prefix.  The final call place(len(blocks), next_pos) made for the last block,
which only checks that no line_state cell at or after next_pos is FILLED and
emits the all-EMPTY tail, is inlined in the rest = [] branch; the [] pattern of
this definition is that same base case for the empty block list.
max_start = length - (block + min_rem_len) may be negative in Python, giving an
empty start range; the truncated subtraction L + 1 - (b + ...) - pos yields the
same empty range. -/
def place (ls : Line) (L : Nat) : List Nat → Nat → List Line
  | [], pos =>
      if ∀ i ∈ List.range' pos (L - pos), ls.getD i UNKNOWN ≠ FILLED then
        [List.replicate (L - pos) EMPTY]
      else []
  | b :: rest, pos =>
      (List.range' pos (L + 1 - (b + (rest.sum + rest.length)) - pos)).flatMap (fun start =>
        if ∀ i ∈ List.range' pos (start - pos), ls.getD i UNKNOWN ≠ FILLED then
          if ∀ i ∈ List.range' start b, ls.getD i UNKNOWN ≠ EMPTY then
            match rest with
            | [] =>
              if ∀ i ∈ List.range' (start + b) (L - (start + b)), ls.getD i UNKNOWN ≠ FILLED then
                [List.replicate (start - pos) EMPTY ++ List.replicate b FILLED ++
                  List.replicate (L - (start + b)) EMPTY]
              else []
            | _ :: _ =>
              if start + b < L then
                if ls.getD (start + b) UNKNOWN = FILLED then []
                else
                  (place ls L rest (start + b + 1)).map (fun suf =>
                    List.replicate (start - pos) EMPTY ++ List.replicate b FILLED ++
                      EMPTY :: suf)
              else []
          else []
        else [])

/-- _line_candidates(length, blocks, line_state) from solver.py.  The Python
lru_cache memoisation is semantically transparent for a pure function and is
not modelled.  Clue values are natural numbers (model.py rejects non-positive
clue values at load time). -/
def lineCandidates (L : Nat) (blocks : List Nat) (ls : Line) : List Line :=
  match blocks with
  | [] => if FILLED ∈ ls then [] else [List.replicate L EMPTY]
  | _ :: _ => place ls L blocks 0

/-- _intersect_candidates(candidates) from solver.py: per position, the common
value of all candidates, or UNKNOWN where they disagree. -/
def intersectCandidates (cands : List Line) : Line :=
  match cands with
  | [] => []
  | c0 :: rest =>
      (List.range c0.length).map (fun i =>
        if ∀ cand ∈ rest, cand.getD i UNKNOWN = c0.getD i UNKNOWN then
          c0.getD i UNKNOWN
        else UNKNOWN)

/-- _is_solved(grid) from solver.py. -/
def isSolved (g : Grid) : Bool :=
  g.all (fun row => row.all (fun v => decide (v ≠ UNKNOWN)))

/-- _count_fixed(grid) from solver.py. -/
def countFixed (g : Grid) : Nat :=
  (g.map (fun row => (row.filter (fun v => decide (v ≠ UNKNOWN))).length)).sum

/-- Number of UNKNOWN cells of a grid; the termination measure of both the
propagation loop and the search recursion. -/
def countUnknown (g : Grid) : Nat :=
  (g.map (fun row => row.count UNKNOWN)).sum

/-- The cell update applied by the propagation loops of solver.py:
assign intersection[c] when it is determined and differs from the current cell,
otherwise leave the cell alone. -/
def updateCell (cur v : Int) : Int :=
  if v ≠ UNKNOWN ∧ cur ≠ v then v else cur

/-- Number of cells the propagation loop writes when applying the intersection
to a line, scanning the positions of the line as Python scans range(width) or
range(height): the positions where the intersection is determined and differs
from the current value.  propagate reports a boolean changed flag, which is
exactly the condition that this count is nonzero; propagate_once reports the
count. -/
def lineWrites (line inter : Line) : Nat :=
  ((List.range line.length).filter (fun j =>
    decide (inter.getD j UNKNOWN ≠ UNKNOWN ∧ line.getD j UNKNOWN ≠ inter.getD j UNKNOWN))).length

/-- One row reduction of the propagation loops: generate candidates for the
row, fail on an empty candidate set, otherwise apply the intersection back into
the row.  This is the body of the rows loop in propagate / propagate_once. -/
def reduceLine (L : Nat) (blocks : List Nat) (line : Line) : Option (Line × Nat) :=
  if lineCandidates L blocks line = [] then none
  else
    some (List.zipWith updateCell line (intersectCandidates (lineCandidates L blocks line)),
      lineWrites line (intersectCandidates (lineCandidates L blocks line)))

/-- The rows loop of propagate / propagate_once.  Returns (ok, rows, writes):
on an empty candidate set it stops at once with ok = false, keeping the updates
already applied to earlier rows and leaving the remaining rows untouched. -/
def rowsPass (w : Nat) : List (List Nat) → List Line → Bool × List Line × Nat
  | _, [] => (true, [], 0)
  | clues, row :: rest =>
      match reduceLine w (clues.headD []) row with
      | none => (false, row :: rest, 0)
      | some (row', k) =>
          let r := rowsPass w clues.tail rest
          (r.1, row' :: r.2.1, k + r.2.2)

/-- The write performed for one grid row by the columns loop: assign cell c of
the row when the intersection entry is determined and differs, as in
solver.py's columns loop; the row is untouched otherwise. -/
def colUpdateRow (c : Nat) (row : Line) (v : Int) : Line :=
  if v ≠ UNKNOWN ∧ row.getD c UNKNOWN ≠ v then row.set c v else row

/-- The line state of column c: tuple(grid[r][c] for r in range(height)),
where the grid itself supplies the rows. -/
def colLineState (c : Nat) (g : Grid) : Line :=
  g.map (fun row => row.getD c UNKNOWN)

/-- One column reduction of the propagation loops: build the column's line
state, generate candidates, fail on an empty candidate set, otherwise write
the intersection back down the column.  h is len(grid) as in solver.py. -/
def colStep (h : Nat) (blocks : List Nat) (c : Nat) (g : Grid) : Option (Grid × Nat) :=
  if lineCandidates h blocks (colLineState c g) = [] then none
  else
    some (List.zipWith (colUpdateRow c) g
        (intersectCandidates (lineCandidates h blocks (colLineState c g))),
      lineWrites (colLineState c g)
        (intersectCandidates (lineCandidates h blocks (colLineState c g))))

/-- The columns loop of propagate / propagate_once over the column indices
range(width); stops at the first contradicted column, keeping earlier
columns' updates. -/
def colsPass (h : Nat) (colClues : List (List Nat)) : List Nat → Grid → Bool × Grid × Nat
  | [], g => (true, g, 0)
  | c :: cs, g =>
      match colStep h (colClues.getD c []) c g with
      | none => (false, g, 0)
      | some (g', k) =>
          let r := colsPass h colClues cs g'
          (r.1, r.2.1, k + r.2.2)

/-- One full propagation pass: all rows, then all columns, as in the body of
propagate's while loop and in propagate_once.  On a row failure the columns
are not visited, matching the early return of the Python code. -/
def fullPass (w h : Nat) (rowClues colClues : List (List Nat)) (g : Grid) :
    Bool × Grid × Nat :=
  let r := rowsPass w rowClues g
  if r.1 then
    let s := colsPass h colClues (List.range w) r.2.1
    (s.1, s.2.1, r.2.2 + s.2.2)
  else (false, r.2.1, r.2.2)

/-- Result of propagate: cancelled (the stop event was set, Python raises
Cancelled), fuelOut (an artifact of the explicit fuel; proved unreachable for
well-formed grids when the fuel exceeds the unknown-cell count), or done with
the success flag, the final grid, and the number of passes (stats.iterations). -/
inductive PropOutcome where
  | cancelled
  | fuelOut
  | done (ok : Bool) (g : Grid) (iters : Nat)
deriving DecidableEq

/-- The while loop of propagate(grid, row_clues, col_clues, stop_event, ...).
Each iteration checks the cancellation flag, runs one full pass, stops with
failure on a contradiction, stops with success when the pass changed nothing,
and otherwise loops.  The stop event is modelled as a constant boolean. -/
def propagateAux (cancel : Bool) (w h : Nat) (rowClues colClues : List (List Nat)) :
    Nat → Grid → PropOutcome
  | 0, _ => .fuelOut
  | fuel + 1, g =>
      if cancel then .cancelled
      else
        let p := fullPass w h rowClues colClues g
        if p.1 = false then .done false p.2.1 1
        else if p.2.2 = 0 then .done true p.2.1 1
        else
          match propagateAux cancel w h rowClues colClues fuel p.2.1 with
          | .done ok g' n => .done ok g' (n + 1)
          | r => r

/-- propagate(grid, row_clues, col_clues, stop_event) from solver.py, run to
fixpoint.  width and height are taken from the grid exactly as in Python
(len(grid[0]), len(grid)); the fuel countUnknown grid + 1 is proved sufficient
for well-formed grids. -/
def propagate (cancel : Bool) (g : Grid) (rowClues colClues : List (List Nat)) :
    PropOutcome :=
  propagateAux cancel (g.headD []).length g.length rowClues colClues
    (countUnknown g + 1) g

/-- propagate_once(grid, row_clues, col_clues) from solver.py: a single pass of
rows then columns, returning the success flag, the updated grid and the count
of changed cells. -/
def propagateOnce (g : Grid) (rowClues colClues : List (List Nat)) :
    Bool × Grid × Nat :=
  fullPass (g.headD []).length g.length rowClues colClues g

/-- Initial accumulator of _best_branch_line: best_type = "", best_index = -1,
best_candidates = (), best_count = 10 ** 9. -/
def branchInit : String × Int × List Line × Nat := ("", -1, [], 10 ^ 9)

/-- The line state examined by _best_branch_line for a row r ("row", r) or a
column c ("col", c): grid[r], respectively the tuple of grid[r][c] over r. -/
def lineStateAt (g : Grid) (p : String × Nat) : Line :=
  if p.1 = "row" then g.getD p.2 [] else g.map (fun row => row.getD p.2 UNKNOWN)

/-- The generator length argument used for a line: width for rows, height for
columns. -/
def lineLenAt (w h : Nat) (p : String × Nat) : Nat :=
  if p.1 = "row" then w else h

/-- The clue list used for a line: row_clues[r] or col_clues[c]. -/
def clueAt (rowClues colClues : List (List Nat)) (p : String × Nat) : List Nat :=
  if p.1 = "row" then rowClues.getD p.2 [] else colClues.getD p.2 []

/-- The candidate set _best_branch_line computes for one line. -/
def candsAt (w h : Nat) (rowClues colClues : List (List Nat)) (g : Grid)
    (p : String × Nat) : List Line :=
  lineCandidates (lineLenAt w h p) (clueAt rowClues colClues p) (lineStateAt g p)

/-- The loop body of _best_branch_line: skip a line with no UNKNOWN cell;
otherwise compute its candidates and take it as the new best when
count > 1 and count < best_count. -/
def branchStep (w h : Nat) (rowClues colClues : List (List Nat)) (g : Grid)
    (st : String × Int × List Line × Nat) (p : String × Nat) :
    String × Int × List Line × Nat :=
  if UNKNOWN ∈ lineStateAt g p then
    if 1 < (candsAt w h rowClues colClues g p).length ∧
        (candsAt w h rowClues colClues g p).length < st.2.2.2 then
      (p.1, (p.2 : Int), candsAt w h rowClues colClues g p,
        (candsAt w h rowClues colClues g p).length)
    else st
  else st

/-- The scan order of _best_branch_line: all rows by ascending index, then all
columns by ascending index; the two sequential for loops of the Python code
are one fold over this list. -/
def scanOrder (h w : Nat) : List (String × Nat) :=
  ((List.range h).map (fun r => ("row", r))) ++ ((List.range w).map (fun c => ("col", c)))

/-- _best_branch_line(grid, row_clues, col_clues) from solver.py, returning
(best_type, best_index, best_candidates); width and height are len(grid[0])
and len(grid) as in Python. -/
def bestBranchLine (g : Grid) (rowClues colClues : List (List Nat)) :
    String × Int × List Line :=
  let w := (g.headD []).length
  let h := g.length
  let st := (scanOrder h w).foldl (branchStep w h rowClues colClues g) branchInit
  (st.1, st.2.1, st.2.2.1)

/-- Result of the search recursion: fuelOut (artifact of the explicit fuel,
proved unreachable for well-formed grids), cancelled (the Cancelled exception
reached the top), or the accumulated solution list. -/
inductive SearchOut where
  | fuelOut
  | cancelled
  | found (sols : List Grid)
deriving DecidableEq

/-- Writing one candidate filling over the chosen line of a grid copy, as in
the branching step of dfs: for a row, every cell of row index is assigned from
the candidate (for a well-formed grid this replaces the row by the candidate);
for a column, cell index of each row r is assigned cand[r]. -/
def applyCandidate (lineType : String) (index : Nat) (cand : Line) (g : Grid) : Grid :=
  if lineType = "row" then g.set index cand
  else List.zipWith (fun row v => row.set index v) g cand

/-- The candidate loop of dfs: before each candidate, stop as soon as the
accumulated solution count has reached max_solutions; otherwise build the
branch grid and recurse (child is the recursive dfs call one level deeper). -/
def dfsOverCands (maxSolutions : Nat) (child : Grid → List Grid → SearchOut)
    (branchGrid : Line → Grid) : List Line → List Grid → SearchOut
  | [], sols => .found sols
  | cand :: more, sols =>
      if maxSolutions ≤ sols.length then .found sols
      else
        match child (branchGrid cand) sols with
        | .found sols' => dfsOverCands maxSolutions child branchGrid more sols'
        | r => r

/-- dfs(cur_grid, depth) from solve_nonogram: check cancellation, propagate to
fixpoint, prune on contradiction, record a solution when solved, otherwise
branch on the best line and try its candidates in order.  The solutions list
is threaded explicitly; the statistics counters, which do not influence any
control flow or result, are not modelled. -/
def dfsAux (cancel : Bool) (rowClues colClues : List (List Nat)) (maxSolutions : Nat) :
    Nat → Grid → List Grid → SearchOut
  | 0, _, _ => .fuelOut
  | fuel + 1, g, sols =>
      if cancel then .cancelled
      else
        match propagate cancel g rowClues colClues with
        | .cancelled => .cancelled
        | .fuelOut => .fuelOut
        | .done false _ _ => .found sols
        | .done true g' _ =>
            if isSolved g' then .found (sols ++ [g'])
            else
              let b := bestBranchLine g' rowClues colClues
              if b.2.2 = [] then .found sols
              else
                dfsOverCands maxSolutions
                  (fun g2 sols2 => dfsAux cancel rowClues colClues maxSolutions fuel g2 sols2)
                  (fun cand => applyCandidate b.1 b.2.1.toNat cand g') b.2.2 sols

/-- SolveResult from solver.py, without the statistics record (whose counters
never influence the status, solutions or message). -/
structure SolveResult where
  status : String
  solutions : List Grid
  message : String
deriving DecidableEq

/-- solve_nonogram(grid, row_clues, col_clues, stop_event, progress_cb,
max_solutions) from solver.py.  The Python default for max_solutions is 2.
The search works on a copy of the caller's grid; with value semantics the copy
is the value itself.  The search depth is bounded by the cell count (proved:
every branch strictly reduces the unknown-cell count), so height * width + 1
fuel levels suffice; none is the unreachable fuel-exhaustion artifact. -/
def solveNonogram (cancel : Bool) (maxSolutions : Nat) (g : Grid)
    (rowClues colClues : List (List Nat)) : Option SolveResult :=
  let w := (g.headD []).length
  let h := g.length
  match dfsAux cancel rowClues colClues maxSolutions (h * w + 1) g [] with
  | .fuelOut => none
  | .cancelled => some ⟨"cancelled", [], "Solve cancelled"⟩
  | .found sols =>
      if sols = [] then some ⟨"unsolved", [], "No solution"⟩
      else if 2 ≤ sols.length then some ⟨"multiple", sols.take 2, "Multiple solutions found"⟩
      else some ⟨"solved", sols, "Unique solution"⟩

instance {ε α : Type} [DecidableEq ε] [DecidableEq α] : DecidableEq (Except ε α) := by
  intro x y
  cases x <;> cases y
  case error.error a b => exact decidable_of_iff (a = b) (by simp)
  case ok.ok a b => exact decidable_of_iff (a = b) (by simp)
  all_goals exact .isFalse (by simp)

/-- Puzzle from model.py.  Width and height are natural numbers (Python ints
checked positive at construction), clue values are natural numbers (model.py's
loader rejects non-positive clue values). -/
structure Puzzle where
  width : Nat
  height : Nat
  rowClues : List (List Nat)
  colClues : List (List Nat)
  grid : Grid
deriving DecidableEq

/-- Puzzle.__post_init__ together with Puzzle._validate from model.py:
reject non-positive dimensions, default empty clue lists and an empty grid,
then check the clue-list lengths, the grid dimensions and the cell values.
Python reports the width error or the invalid-value error of the first
offending row while scanning rows; only which error is reported, never whether
one is reported, differs from checking all widths before all values. -/
def mkPuzzle (width height : Nat) (rowClues colClues : List (List Nat)) (grid : Grid) :
    Except String Puzzle :=
  if width = 0 ∨ height = 0 then .error "width and height must be positive"
  else
    let rc := if rowClues = [] then List.replicate height [] else rowClues
    let cc := if colClues = [] then List.replicate width [] else colClues
    let g := if grid = [] then List.replicate height (List.replicate width UNKNOWN) else grid
    if rc.length ≠ height then .error "row_clues length mismatch"
    else if cc.length ≠ width then .error "col_clues length mismatch"
    else if g.length ≠ height then .error "grid height mismatch"
    else if ¬ ∀ row ∈ g, row.length = width then .error "grid width mismatch"
    else if ¬ ∀ row ∈ g, ∀ v ∈ row, v = UNKNOWN ∨ v = EMPTY ∨ v = FILLED then
      .error "grid contains invalid value"
    else .ok ⟨width, height, rc, cc, g⟩

/-- Puzzle._normalize_clues from model.py: every clue value must be a positive
integer.  Clue values live in Nat here, so the check reduces to nonzero. -/
def normalizeClues (clues : List (List Nat)) : Except String (List (List Nat)) :=
  if ∀ line ∈ clues, ∀ n ∈ line, 0 < n then .ok clues
  else .error "clue values must be positive integers"

/-- Puzzle.load_json from model.py, applied to an already-decoded record:
normalize both clue lists, then construct the Puzzle (construction itself
substitutes an all-Unknown grid when the grid field is empty). -/
def loadPuzzle (width height : Nat) (rowClues colClues : List (List Nat)) (grid : Grid) :
    Except String Puzzle :=
  match normalizeClues rowClues with
  | .error e => .error e
  | .ok rc =>
      match normalizeClues colClues with
      | .error e => .error e
      | .ok cc => mkPuzzle width height rc cc grid

/-- A row store models Python's heap of row list objects: a row reference is an
index into the store, and a grid object is the list of its rows' references.
grid[r][c] = v mutates a row object in place; [row[:] for row in grid]
allocates fresh row objects.  This makes the aliasing discipline of
solve_nonogram explicit so that non-mutation of the caller's grid is a
provable statement. -/
abbrev RowStore := List Line

abbrev GridRef := List Nat

/-- The grid value held by a grid object: its rows read through the store. -/
def derefGrid (σ : RowStore) (ref : GridRef) : Grid :=
  ref.map (fun i => σ.getD i [])

/-- [row[:] for row in grid]: allocate every row of g as a fresh row object at
the end of the store and return the new grid object. -/
def allocGrid (σ : RowStore) (g : Grid) : RowStore × GridRef :=
  (σ ++ g, (List.range g.length).map (fun i => σ.length + i))

/-- Write the rows of g through the references ref: the net store effect of a
call that mutates the rows of its grid in place. -/
def writeGrid (σ : RowStore) (ref : GridRef) (g : Grid) : RowStore :=
  match ref, g with
  | [], _ => σ
  | _ :: _, [] => σ
  | i :: ref', row :: rows => writeGrid (σ.set i row) ref' rows

/-- propagate acting on a stored grid: run the functional propagate on the
dereferenced grid and write the resulting rows back through the same
references.  Faithful to solver.py because propagate assigns only cells of its
own grid's rows, and every grid the search hands it consists of freshly copied
row objects. -/
def propagateStore (cancel : Bool) (σ : RowStore) (ref : GridRef)
    (rowClues colClues : List (List Nat)) : RowStore × PropOutcome :=
  match propagate cancel (derefGrid σ ref) rowClues colClues with
  | .done ok g' n => (writeGrid σ ref g', .done ok g' n)
  | r => (σ, r)

/-- The candidate loop of dfs on the store: new_grid = [row[:] for row in
cur_grid] followed by writing the candidate over the chosen line allocates
fresh row objects holding the branch grid. -/
def dfsStoreCands (maxSolutions : Nat)
    (child : RowStore → GridRef → List Grid → RowStore × SearchOut)
    (branchGrid : Line → Grid) : List Line → RowStore → List Grid → RowStore × SearchOut
  | [], σ, sols => (σ, .found sols)
  | cand :: more, σ, sols =>
      if maxSolutions ≤ sols.length then (σ, .found sols)
      else
        let a := allocGrid σ (branchGrid cand)
        match child a.1 a.2 sols with
        | (σ', .found sols') => dfsStoreCands maxSolutions child branchGrid more σ' sols'
        | r => r

/-- dfs(cur_grid, depth) acting on a stored grid; the recorded solution is a
deep copy, hence a plain grid value. -/
def dfsStore (cancel : Bool) (rowClues colClues : List (List Nat)) (maxSolutions : Nat) :
    Nat → RowStore → GridRef → List Grid → RowStore × SearchOut
  | 0, σ, _, _ => (σ, .fuelOut)
  | fuel + 1, σ, ref, sols =>
      if cancel then (σ, .cancelled)
      else
        match propagateStore cancel σ ref rowClues colClues with
        | (σ1, .done false _ _) => (σ1, .found sols)
        | (σ1, .done true g' _) =>
            if isSolved g' then (σ1, .found (sols ++ [g']))
            else
              let b := bestBranchLine g' rowClues colClues
              if b.2.2 = [] then (σ1, .found sols)
              else
                dfsStoreCands maxSolutions
                  (fun σ2 ref2 sols2 =>
                    dfsStore cancel rowClues colClues maxSolutions fuel σ2 ref2 sols2)
                  (fun cand => applyCandidate b.1 b.2.1.toNat cand g') b.2.2 σ1 sols
        | (σ1, .cancelled) => (σ1, .cancelled)
        | (σ1, .fuelOut) => (σ1, .fuelOut)

/-- solve_nonogram acting on a stored caller grid: copy the caller's grid into
fresh row objects (start_grid = [row[:] for row in grid]) and search on the
copy; returns the final store together with the result. -/
def solveStore (cancel : Bool) (maxSolutions : Nat) (σ : RowStore) (ref : GridRef)
    (rowClues colClues : List (List Nat)) : RowStore × Option SolveResult :=
  let g := derefGrid σ ref
  let w := (g.headD []).length
  let h := g.length
  let a := allocGrid σ g
  match dfsStore cancel rowClues colClues maxSolutions (h * w + 1) a.1 a.2 [] with
  | (σ', .fuelOut) => (σ', none)
  | (σ', .cancelled) => (σ', some ⟨"cancelled", [], "Solve cancelled"⟩)
  | (σ', .found sols) =>
      if sols = [] then (σ', some ⟨"unsolved", [], "No solution"⟩)
      else if 2 ≤ sols.length then
        (σ', some ⟨"multiple", sols.take 2, "Multiple solutions found"⟩)
      else (σ', some ⟨"solved", sols, "Unique solution"⟩)

/-- Spec side: a cell value of the tri-valued enumeration. -/
abbrev WfCell (v : Int) : Prop := v = UNKNOWN ∨ v = EMPTY ∨ v = FILLED

/-- Spec side: a line of width w over valid cell values. -/
abbrev WfLine (w : Nat) (row : Line) : Prop := row.length = w ∧ ∀ v ∈ row, WfCell v

/-- Spec side: a height x width rectangular grid over valid cell values. -/
abbrev WfGrid (w h : Nat) (g : Grid) : Prop := g.length = h ∧ ∀ row ∈ g, WfLine w row

/-- The value of cell (r, c); out-of-range positions read as UNKNOWN. -/
def cellOf (g : Grid) (r c : Nat) : Int := (g.getD r []).getD c UNKNOWN

/-- Spec side: every determined (non-Unknown) cell of g keeps exactly its value
in g'; the determined set never shrinks and is never overwritten. -/
def PreservesFixed (g g' : Grid) : Prop :=
  ∀ r c, cellOf g r c ≠ UNKNOWN → cellOf g' r c = cellOf g r c

/-- Spec side: maximal runs of FILLED cells; cur is the length of the run of
FILLED cells immediately before the remaining list. -/
def runsAux : List Int → Nat → List Nat
  | [], cur => if cur = 0 then [] else [cur]
  | v :: rest, cur =>
      if v = FILLED then runsAux rest (cur + 1)
      else if cur = 0 then runsAux rest 0
      else cur :: runsAux rest 0

/-- Spec side: the list of lengths of the maximal runs of FILLED cells of a
line, in order. -/
def filledRuns (l : Line) : List Nat := runsAux l 0

/-- Spec side: pointwise consistency of a candidate filling with a fixed line
state, as stated by the spec: Filled stays Filled, Empty stays Empty. -/
def ConsistentWith (ls cand : Line) : Prop :=
  ∀ i : Nat, (ls.getD i UNKNOWN = FILLED → cand.getD i UNKNOWN = FILLED) ∧
    (ls.getD i UNKNOWN = EMPTY → cand.getD i UNKNOWN = EMPTY)

/-- Spec side: a line the branch selector may choose: it still contains an
Unknown cell and its candidate-set size is strictly greater than 1. -/
def branchQualifies (w h : Nat) (rowClues colClues : List (List Nat)) (g : Grid)
    (p : String × Nat) : Prop :=
  UNKNOWN ∈ lineStateAt g p ∧ 1 < (candsAt w h rowClues colClues g p).length

/-! ## List helpers -/

theorem getD_append_left {α : Type} {l1 l2 : List α} {j : Nat} (d : α) (h : j < l1.length) :
    (l1 ++ l2).getD j d = l1.getD j d := by
  simp [List.getD_eq_getElem?_getD, List.getElem?_append, h]

theorem getD_append_right {α : Type} {l1 l2 : List α} {j : Nat} (d : α) (h : l1.length ≤ j) :
    (l1 ++ l2).getD j d = l2.getD (j - l1.length) d := by
  simp [List.getD_eq_getElem?_getD, List.getElem?_append, Nat.not_lt.mpr h]

theorem getD_replicate {n j : Nat} {a d : Int} :
    (List.replicate n a).getD j d = if j < n then a else d := by
  simp only [List.getD_eq_getElem?_getD, List.getElem?_replicate]
  split <;> simp

theorem getD_map_lt {α : Type} {f : α → Int} {l : List α} {r : Nat} (d : Int) (d' : α)
    (h : r < l.length) : (l.map f).getD r d = f (l.getD r d') := by
  simp [List.getD_eq_getElem?_getD, List.getElem?_map, List.getElem?_eq_getElem h,
    List.getD_eq_getElem?_getD]

theorem getD_map_ge {α : Type} {f : α → Int} {l : List α} {r : Nat} (d : Int)
    (h : l.length ≤ r) : (l.map f).getD r d = d := by
  simp [List.getD_eq_getElem?_getD, List.getElem?_map,
    List.getElem?_eq_none (by simpa using h)]

theorem getD_set_ne {α : Type} {l : List α} {i j : Nat} {v d : α} (h : i ≠ j) :
    (l.set i v).getD j d = l.getD j d := by
  simp [List.getD_eq_getElem?_getD, List.getElem?_set, h]

theorem getD_set_self {α : Type} {l : List α} {i : Nat} {v d : α} (h : i < l.length) :
    (l.set i v).getD i d = v := by
  simp [List.getD_eq_getElem?_getD, List.getElem?_set, h]

theorem getD_zipWith {α β γ : Type} {f : α → β → γ} {l1 : List α} {l2 : List β} {j : Nat}
    (d : γ) (d1 : α) (d2 : β) (h1 : j < l1.length) (h2 : j < l2.length) :
    (List.zipWith f l1 l2).getD j d = f (l1.getD j d1) (l2.getD j d2) := by
  simp [List.getD_eq_getElem?_getD, List.getElem?_zipWith, List.getElem?_eq_getElem h1,
    List.getElem?_eq_getElem h2]

theorem flatMap_singleton_map {α β : Type} (l : List α) (f : α → β) :
    (l.flatMap fun a => [f a]) = l.map f := by
  induction l with
  | nil => rfl
  | cons a l ih => simp [List.flatMap_cons, ih]

theorem flatMap_congr_mem {α β : Type} {l : List α} {f g : α → List β}
    (h : ∀ a ∈ l, f a = g a) : l.flatMap f = l.flatMap g := by
  induction l with
  | nil => rfl
  | cons a l ih =>
      simp only [List.flatMap_cons]
      rw [h a (by simp), ih (fun a ha => h a (by simp [ha]))]

theorem zipWith_eq_left {α β : Type} {f : α → β → α} (d1 : α) (d2 : β) :
    ∀ {l1 : List α} {l2 : List β}, l2.length = l1.length →
      (∀ j, j < l1.length → f (l1.getD j d1) (l2.getD j d2) = l1.getD j d1) →
      List.zipWith f l1 l2 = l1 := by
  intro l1
  induction l1 with
  | nil => intro l2 _ _; simp
  | cons a l ih =>
      intro l2 hlen hpt
      cases l2 with
      | nil => simp at hlen
      | cons b m =>
          simp only [List.zipWith_cons_cons]
          have h0 := hpt 0 (by simp)
          simp only [List.getD_cons_zero] at h0
          rw [h0, ih (by simpa using hlen)]
          intro j hj
          have := hpt (j + 1) (by simpa using Nat.succ_lt_succ hj)
          simpa [List.getD_cons_succ] using this

/-! ## Counting helpers -/

theorem count_unknown_le : ∀ {l l' : Line}, l'.length = l.length →
    (∀ j, j < l.length → l'.getD j UNKNOWN = UNKNOWN → l.getD j UNKNOWN = UNKNOWN) →
    l'.count UNKNOWN ≤ l.count UNKNOWN := by
  intro l
  induction l with
  | nil => intro l' hlen _; simp [List.length_eq_zero.mp hlen]
  | cons a l ih =>
      intro l' hlen hpt
      cases l' with
      | nil => simp at hlen
      | cons b m =>
          have htail : m.count UNKNOWN ≤ l.count UNKNOWN := by
            refine ih (by simpa using hlen) ?_
            intro j hj hb
            have := hpt (j + 1) (by simpa using Nat.succ_lt_succ hj)
            exact (show m.getD j UNKNOWN = UNKNOWN → l.getD j UNKNOWN = UNKNOWN by
              simpa [List.getD_cons_succ] using this) hb
          have h0 := hpt 0 (by simp)
          simp only [List.getD_cons_zero] at h0
          by_cases hb : b = UNKNOWN
          · have ha : a = UNKNOWN := h0 hb
            simp [List.count_cons, ha, hb]
            omega
          · simp only [List.count_cons]
            have : (if (b == UNKNOWN) = true then 1 else 0) = 0 := by
              simp [hb]
            rw [this]
            have : (if (a == UNKNOWN) = true then 1 else 0) ≤ 1 := by split <;> omega
            omega

theorem count_unknown_lt : ∀ {l l' : Line}, l'.length = l.length →
    (∀ j, j < l.length → l'.getD j UNKNOWN = UNKNOWN → l.getD j UNKNOWN = UNKNOWN) →
    (∃ j, j < l.length ∧ l.getD j UNKNOWN = UNKNOWN ∧ l'.getD j UNKNOWN ≠ UNKNOWN) →
    l'.count UNKNOWN < l.count UNKNOWN := by
  intro l
  induction l with
  | nil => intro l' _ _ hex; obtain ⟨j, hj, _⟩ := hex; simp at hj
  | cons a l ih =>
      intro l' hlen hpt hex
      cases l' with
      | nil => simp at hlen
      | cons b m =>
          have hptt : ∀ j, j < l.length → m.getD j UNKNOWN = UNKNOWN →
              l.getD j UNKNOWN = UNKNOWN := by
            intro j hj hb
            have := hpt (j + 1) (by simpa using Nat.succ_lt_succ hj)
            exact (show m.getD j UNKNOWN = UNKNOWN → l.getD j UNKNOWN = UNKNOWN by
              simpa [List.getD_cons_succ] using this) hb
          obtain ⟨j, hj, hl, hl'⟩ := hex
          cases j with
          | zero =>
              simp only [List.getD_cons_zero] at hl hl'
              have htail : m.count UNKNOWN ≤ l.count UNKNOWN :=
                count_unknown_le (by simpa using hlen) hptt
              simp [List.count_cons, hl, hl']
              omega
          | succ j =>
              have htail : m.count UNKNOWN < l.count UNKNOWN := by
                refine ih (by simpa using hlen) hptt ⟨j, by simpa using hj, ?_, ?_⟩
                · simpa [List.getD_cons_succ] using hl
                · simpa [List.getD_cons_succ] using hl'
              have h0 := hpt 0 (by simp)
              simp only [List.getD_cons_zero] at h0
              by_cases hb : b = UNKNOWN
              · simp [List.count_cons, hb, h0 hb]; omega
              · simp only [List.count_cons]
                have h1 : (if (b == UNKNOWN) = true then 1 else 0) = 0 := by simp [hb]
                rw [h1]
                have : (if (a == UNKNOWN) = true then 1 else 0) ≤ 1 := by split <;> omega
                omega

theorem countUnknown_cons (row : Line) (g : Grid) :
    countUnknown (row :: g) = row.count UNKNOWN + countUnknown g := by
  simp [countUnknown]

theorem countUnknown_le_grid : ∀ {g g' : Grid}, g'.length = g.length →
    (∀ r, r < g.length → (g'.getD r []).count UNKNOWN ≤ (g.getD r []).count UNKNOWN) →
    countUnknown g' ≤ countUnknown g := by
  intro g
  induction g with
  | nil => intro g' hlen _; simp [List.length_eq_zero.mp hlen]
  | cons row g ih =>
      intro g' hlen hpt
      cases g' with
      | nil => simp at hlen
      | cons row' g'' =>
          have h0 := hpt 0 (by simp)
          simp only [List.getD_cons_zero] at h0
          have htail : countUnknown g'' ≤ countUnknown g := by
            refine ih (by simpa using hlen) ?_
            intro r hr
            have := hpt (r + 1) (by simpa using Nat.succ_lt_succ hr)
            simpa [List.getD_cons_succ] using this
          simp only [countUnknown_cons]
          omega

theorem countUnknown_lt_grid : ∀ {g g' : Grid}, g'.length = g.length →
    (∀ r, r < g.length → (g'.getD r []).count UNKNOWN ≤ (g.getD r []).count UNKNOWN) →
    (∃ r, r < g.length ∧ (g'.getD r []).count UNKNOWN < (g.getD r []).count UNKNOWN) →
    countUnknown g' < countUnknown g := by
  intro g
  induction g with
  | nil => intro g' _ _ hex; obtain ⟨r, hr, _⟩ := hex; simp at hr
  | cons row g ih =>
      intro g' hlen hpt hex
      cases g' with
      | nil => simp at hlen
      | cons row' g'' =>
          have h0 := hpt 0 (by simp)
          simp only [List.getD_cons_zero] at h0
          have hptt : ∀ r, r < g.length →
              (g''.getD r []).count UNKNOWN ≤ (g.getD r []).count UNKNOWN := by
            intro r hr
            have := hpt (r + 1) (by simpa using Nat.succ_lt_succ hr)
            simpa [List.getD_cons_succ] using this
          obtain ⟨r, hr, hstrict⟩ := hex
          cases r with
          | zero =>
              simp only [List.getD_cons_zero] at hstrict
              have htail : countUnknown g'' ≤ countUnknown g :=
                countUnknown_le_grid (by simpa using hlen) hptt
              simp only [countUnknown_cons]
              omega
          | succ r =>
              have htail : countUnknown g'' < countUnknown g := by
                refine ih (by simpa using hlen) hptt ⟨r, by simpa using hr, ?_⟩
                simpa [List.getD_cons_succ] using hstrict
              simp only [countUnknown_cons]
              omega

/-! ## Well-formedness helpers -/

theorem wfCell_unknown : WfCell UNKNOWN := Or.inl rfl

theorem wfLine_getD {w : Nat} {l : Line} (h : WfLine w l) (j : Nat) :
    WfCell (l.getD j UNKNOWN) := by
  rcases Nat.lt_or_ge j l.length with hj | hj
  · rw [List.getD_eq_getElem l UNKNOWN hj]
    exact h.2 _ (List.getElem_mem hj)
  · rw [List.getD_eq_default l UNKNOWN hj]
    exact wfCell_unknown

theorem wfLine_of_getD {w : Nat} {l : Line} (hlen : l.length = w)
    (h : ∀ j, j < w → WfCell (l.getD j UNKNOWN)) : WfLine w l := by
  refine ⟨hlen, ?_⟩
  intro v hv
  obtain ⟨j, hj, rfl⟩ := List.mem_iff_getElem.mp hv
  have := h j (hlen ▸ hj)
  rwa [List.getD_eq_getElem l UNKNOWN hj] at this

theorem wfGrid_row {w h : Nat} {g : Grid} (hg : WfGrid w h g) (r : Nat) (hr : r < g.length) :
    WfLine w (g.getD r []) := by
  rw [List.getD_eq_getElem g [] hr]
  exact hg.2 _ (List.getElem_mem hr)

theorem cellOf_cons_zero (row : Line) (g : Grid) (c : Nat) :
    cellOf (row :: g) 0 c = row.getD c UNKNOWN := rfl

theorem cellOf_cons_succ (row : Line) (g : Grid) (r c : Nat) :
    cellOf (row :: g) (r + 1) c = cellOf g r c := rfl

theorem cellOf_out_of_range {g : Grid} {r : Nat} (c : Nat) (h : g.length ≤ r) :
    cellOf g r c = UNKNOWN := by
  unfold cellOf
  rw [List.getD_eq_default g [] h]
  rfl

theorem wfGrid_cellOf {w h : Nat} {g : Grid} (hg : WfGrid w h g) (r c : Nat) :
    WfCell (cellOf g r c) := by
  rcases Nat.lt_or_ge r g.length with hr | hr
  · exact wfLine_getD (wfGrid_row hg r hr) c
  · rw [cellOf_out_of_range c hr]; exact wfCell_unknown

/-! ## lineWrites helpers -/

theorem lineWrites_eq_zero {line inter : Line} :
    lineWrites line inter = 0 ↔
      ∀ j, j < line.length →
        ¬(inter.getD j UNKNOWN ≠ UNKNOWN ∧ line.getD j UNKNOWN ≠ inter.getD j UNKNOWN) := by
  unfold lineWrites
  rw [List.length_eq_zero, List.filter_eq_nil_iff]
  constructor
  · intro hf j hj hc
    have := hf j (List.mem_range.mpr hj)
    simp only [decide_eq_true_eq] at this
    exact this hc
  · intro hf j hj
    simp only [decide_eq_true_eq]
    exact hf j (List.mem_range.mp hj)

theorem lineWrites_ne_zero {line inter : Line} (h : lineWrites line inter ≠ 0) :
    ∃ j, j < line.length ∧ inter.getD j UNKNOWN ≠ UNKNOWN ∧
      line.getD j UNKNOWN ≠ inter.getD j UNKNOWN := by
  by_contra hc
  push_neg at hc
  exact h (lineWrites_eq_zero.mpr (by
    intro j hj hq
    exact hq.2 (hc j hj hq.1)))

/-! ## Generator lemmas -/

theorem mem_ite_nil {α : Type} {c : Prop} [inst : Decidable c] {l : List α} {x : α} :
    (x ∈ if c then l else []) ↔ c ∧ x ∈ l := by
  split <;> simp [*]

theorem mem_ite_nil_left {α : Type} {c : Prop} [inst : Decidable c] {l : List α} {x : α} :
    (x ∈ if c then [] else l) ↔ ¬c ∧ x ∈ l := by
  split <;> simp [*]

theorem mem_place_nil {ls : Line} {L pos : Nat} {cand : Line} :
    cand ∈ place ls L [] pos ↔
      (∀ i ∈ List.range' pos (L - pos), ls.getD i UNKNOWN ≠ FILLED) ∧
      cand = List.replicate (L - pos) EMPTY := by
  simp only [place, mem_ite_nil, List.mem_singleton]

theorem mem_place_one {ls : Line} {L b pos : Nat} {cand : Line} :
    cand ∈ place ls L [b] pos ↔
      ∃ start ∈ List.range' pos (L + 1 - (b + 0) - pos),
        (∀ i ∈ List.range' pos (start - pos), ls.getD i UNKNOWN ≠ FILLED) ∧
        (∀ i ∈ List.range' start b, ls.getD i UNKNOWN ≠ EMPTY) ∧
        (∀ i ∈ List.range' (start + b) (L - (start + b)), ls.getD i UNKNOWN ≠ FILLED) ∧
        cand = List.replicate (start - pos) EMPTY ++ List.replicate b FILLED ++
          List.replicate (L - (start + b)) EMPTY := by
  simp only [place, List.mem_flatMap, mem_ite_nil, List.mem_singleton, List.sum_nil,
    List.length_nil, Nat.add_zero]

theorem mem_place_cons2 {ls : Line} {L b r1 : Nat} {rs : List Nat} {pos : Nat} {cand : Line} :
    cand ∈ place ls L (b :: r1 :: rs) pos ↔
      ∃ start ∈ List.range' pos (L + 1 - (b + ((r1 :: rs).sum + (r1 :: rs).length)) - pos),
        (∀ i ∈ List.range' pos (start - pos), ls.getD i UNKNOWN ≠ FILLED) ∧
        (∀ i ∈ List.range' start b, ls.getD i UNKNOWN ≠ EMPTY) ∧
        start + b < L ∧ ¬ls.getD (start + b) UNKNOWN = FILLED ∧
        ∃ suf ∈ place ls L (r1 :: rs) (start + b + 1),
          cand = List.replicate (start - pos) EMPTY ++ List.replicate b FILLED ++
            EMPTY :: suf := by
  constructor
  · intro h
    simp only [place, List.mem_flatMap, mem_ite_nil, mem_ite_nil_left, List.mem_map] at h
    obtain ⟨start, hs, h1, h2, h3, h4, suf, hsuf, hc⟩ := h
    refine ⟨start, hs, h1, h2, h3, h4, suf, ?_, hc.symm⟩
    simp only [place, List.mem_flatMap, mem_ite_nil, mem_ite_nil_left, List.mem_map]
    exact hsuf
  · intro h
    obtain ⟨start, hs, h1, h2, h3, h4, suf, hsuf, hc⟩ := h
    simp only [place, List.mem_flatMap, mem_ite_nil, mem_ite_nil_left, List.mem_map] at hsuf ⊢
    exact ⟨start, hs, h1, h2, h3, h4, suf, hsuf, hc.symm⟩

theorem mem_place_range (b : Nat) (rest : List Nat) {L pos start : Nat}
    (h : start ∈ List.range' pos (L + 1 - (b + (rest.sum + rest.length)) - pos)) :
    pos ≤ start ∧ start + b + rest.sum + rest.length ≤ L := by
  have := List.mem_range'_1.mp h
  omega

theorem mem_place_length {ls : Line} {L : Nat} :
    ∀ (blocks : List Nat) (pos : Nat) (cand : Line),
      cand ∈ place ls L blocks pos → cand.length = L - pos := by
  intro blocks
  induction blocks with
  | nil =>
      intro pos cand h
      obtain ⟨-, rfl⟩ := mem_place_nil.mp h
      simp
  | cons b rest ih =>
      intro pos cand h
      cases rest with
      | nil =>
          obtain ⟨start, hs, -, -, -, rfl⟩ := mem_place_one.mp h
          obtain ⟨hps, hfit⟩ := mem_place_range b [] (by simpa using hs)
          simp only [List.length_append, List.length_replicate]
          simp only [List.sum_nil, List.length_nil] at hfit
          omega
      | cons r1 rs =>
          obtain ⟨start, hs, -, -, hlt, -, suf, hsuf, rfl⟩ := mem_place_cons2.mp h
          obtain ⟨hps, -⟩ := mem_place_range b (r1 :: rs) hs
          have hlen := ih (start + b + 1) suf hsuf
          simp only [List.length_append, List.length_replicate, List.length_cons, hlen]
          omega

theorem mem_place_cells {ls : Line} {L : Nat} :
    ∀ (blocks : List Nat) (pos : Nat) (cand : Line),
      cand ∈ place ls L blocks pos → ∀ v ∈ cand, v = EMPTY ∨ v = FILLED := by
  intro blocks
  induction blocks with
  | nil =>
      intro pos cand h v hv
      obtain ⟨-, rfl⟩ := mem_place_nil.mp h
      exact Or.inl (List.eq_of_mem_replicate hv)
  | cons b rest ih =>
      intro pos cand h v hv
      cases rest with
      | nil =>
          obtain ⟨start, -, -, -, -, rfl⟩ := mem_place_one.mp h
          rcases List.mem_append.mp hv with hv' | hv'
          · rcases List.mem_append.mp hv' with hv'' | hv''
            · exact Or.inl (List.eq_of_mem_replicate hv'')
            · exact Or.inr (List.eq_of_mem_replicate hv'')
          · exact Or.inl (List.eq_of_mem_replicate hv')
      | cons r1 rs =>
          obtain ⟨start, -, -, -, -, -, suf, hsuf, rfl⟩ := mem_place_cons2.mp h
          rcases List.mem_append.mp hv with hv' | hv'
          · rcases List.mem_append.mp hv' with hv'' | hv''
            · exact Or.inl (List.eq_of_mem_replicate hv'')
            · exact Or.inr (List.eq_of_mem_replicate hv'')
          · rcases List.mem_cons.mp hv' with hv'' | hv''
            · exact Or.inl hv''
            · exact ih (start + b + 1) suf hsuf v hv''

theorem getD_prefix_block {a b2 : Nat} {C : Line} {j : Nat} :
    (List.replicate a EMPTY ++ List.replicate b2 FILLED ++ C).getD j UNKNOWN =
      if j < a then EMPTY
      else if j - a < b2 then FILLED
      else C.getD (j - a - b2) UNKNOWN := by
  by_cases h1 : j < a
  · have h12 : j < (List.replicate a EMPTY ++ List.replicate b2 FILLED).length := by
      simp
      omega
    rw [getD_append_left UNKNOWN h12]
    have h11 : j < (List.replicate a EMPTY).length := by simpa using h1
    rw [getD_append_left UNKNOWN h11, getD_replicate]
    simp [h1]
  · by_cases h2 : j - a < b2
    · have h12 : j < (List.replicate a EMPTY ++ List.replicate b2 FILLED).length := by
        simp
        omega
      rw [getD_append_left UNKNOWN h12]
      have h11 : (List.replicate a EMPTY : Line).length ≤ j := by
        simpa using Nat.le_of_not_lt h1
      rw [getD_append_right UNKNOWN h11]
      simp only [List.length_replicate]
      rw [getD_replicate]
      simp [h1, h2]
    · have h12 : (List.replicate a EMPTY ++ List.replicate b2 FILLED : Line).length ≤ j := by
        simp
        omega
      rw [getD_append_right UNKNOWN h12]
      simp only [List.length_append, List.length_replicate]
      rw [Nat.sub_add_eq]
      simp [h1, h2]

theorem mem_place_consistent {ls : Line} {L : Nat} :
    ∀ (blocks : List Nat) (pos : Nat) (cand : Line),
      cand ∈ place ls L blocks pos → ∀ j, j < L - pos →
        (ls.getD (pos + j) UNKNOWN = FILLED → cand.getD j UNKNOWN = FILLED) ∧
        (ls.getD (pos + j) UNKNOWN = EMPTY → cand.getD j UNKNOWN = EMPTY) := by
  intro blocks
  induction blocks with
  | nil =>
      intro pos cand h j hj
      obtain ⟨hchk, rfl⟩ := mem_place_nil.mp h
      have hne : ls.getD (pos + j) UNKNOWN ≠ FILLED :=
        hchk (pos + j) (List.mem_range'_1.mpr ⟨Nat.le_add_right _ _, by omega⟩)
      refine ⟨fun hF => absurd hF hne, fun _ => ?_⟩
      rw [getD_replicate]
      simp [hj]
  | cons b rest ih =>
      intro pos cand h j hj
      cases rest with
      | nil =>
          obtain ⟨start, hs, hgap, hblk, htail, rfl⟩ := mem_place_one.mp h
          obtain ⟨hps, hfit⟩ := mem_place_range b [] (by simpa using hs)
          simp only [List.sum_nil, List.length_nil] at hfit
          rw [getD_prefix_block]
          by_cases h1 : j < start - pos
          · have hne : ls.getD (pos + j) UNKNOWN ≠ FILLED :=
              hgap (pos + j) (List.mem_range'_1.mpr ⟨Nat.le_add_right _ _, by omega⟩)
            simp only [if_pos h1]
            exact ⟨fun hF => absurd hF hne, fun _ => by trivial⟩
          · by_cases h2 : j - (start - pos) < b
            · have hne : ls.getD (pos + j) UNKNOWN ≠ EMPTY :=
                hblk (pos + j) (List.mem_range'_1.mpr ⟨by omega, by omega⟩)
              simp only [if_neg h1, if_pos h2]
              exact ⟨fun _ => by trivial, fun hE => absurd hE hne⟩
            · have hne : ls.getD (pos + j) UNKNOWN ≠ FILLED :=
                htail (pos + j) (List.mem_range'_1.mpr ⟨by omega, by omega⟩)
              simp only [if_neg h1, if_neg h2]
              rw [getD_replicate]
              refine ⟨fun hF => absurd hF hne, fun _ => ?_⟩
              simp only [if_pos (show j - (start - pos) - b < L - (start + b) by omega)]
      | cons r1 rs =>
          obtain ⟨start, hs, hgap, hblk, hlt, hsep, suf, hsuf, rfl⟩ := mem_place_cons2.mp h
          obtain ⟨hps, hfit⟩ := mem_place_range b (r1 :: rs) hs
          rw [getD_prefix_block]
          by_cases h1 : j < start - pos
          · have hne : ls.getD (pos + j) UNKNOWN ≠ FILLED :=
              hgap (pos + j) (List.mem_range'_1.mpr ⟨Nat.le_add_right _ _, by omega⟩)
            simp only [if_pos h1]
            exact ⟨fun hF => absurd hF hne, fun _ => by trivial⟩
          · by_cases h2 : j - (start - pos) < b
            · have hne : ls.getD (pos + j) UNKNOWN ≠ EMPTY :=
                hblk (pos + j) (List.mem_range'_1.mpr ⟨by omega, by omega⟩)
              simp only [if_neg h1, if_pos h2]
              exact ⟨fun _ => by trivial, fun hE => absurd hE hne⟩
            · simp only [if_neg h1, if_neg h2]
              by_cases h3 : j - (start - pos) - b = 0
              · have hpj : pos + j = start + b := by omega
                rw [h3]
                simp only [List.getD_cons_zero]
                rw [hpj]
                exact ⟨fun hF => absurd hF hsep, fun _ => by trivial⟩
              · obtain ⟨j', hj'⟩ : ∃ j', j - (start - pos) - b = j' + 1 :=
                  ⟨j - (start - pos) - b - 1, by omega⟩
                rw [hj']
                simp only [List.getD_cons_succ]
                have hrec := ih (start + b + 1) suf hsuf j' (by
                  have := mem_place_length (r1 :: rs) (start + b + 1) suf hsuf
                  omega)
                have hpj : start + b + 1 + j' = pos + j := by omega
                rwa [hpj] at hrec

theorem mem_lineCandidates_length {L : Nat} {blocks : List Nat} {ls cand : Line}
    (h : cand ∈ lineCandidates L blocks ls) : cand.length = L := by
  cases blocks with
  | nil =>
      simp only [lineCandidates] at h
      obtain ⟨-, h⟩ := mem_ite_nil_left.mp h
      simp only [List.mem_singleton] at h
      simp [h]
  | cons b rest =>
      simp only [lineCandidates] at h
      simpa using mem_place_length (b :: rest) 0 cand h

theorem mem_lineCandidates_cells {L : Nat} {blocks : List Nat} {ls cand : Line}
    (h : cand ∈ lineCandidates L blocks ls) : ∀ v ∈ cand, v = EMPTY ∨ v = FILLED := by
  cases blocks with
  | nil =>
      simp only [lineCandidates] at h
      obtain ⟨-, h⟩ := mem_ite_nil_left.mp h
      simp only [List.mem_singleton] at h
      subst h
      intro v hv
      exact Or.inl (List.eq_of_mem_replicate hv)
  | cons b rest =>
      simp only [lineCandidates] at h
      exact mem_place_cells (b :: rest) 0 cand h

theorem mem_lineCandidates_getD_ne_unknown {L : Nat} {blocks : List Nat} {ls cand : Line}
    {j : Nat} (h : cand ∈ lineCandidates L blocks ls) (hj : j < L) :
    cand.getD j UNKNOWN ≠ UNKNOWN := by
  have hlen := mem_lineCandidates_length h
  have hmem : cand.getD j UNKNOWN ∈ cand := by
    rw [List.getD_eq_getElem cand UNKNOWN (by omega)]
    exact List.getElem_mem _
  rcases mem_lineCandidates_cells h _ hmem with he | hf
  · rw [he]; decide
  · rw [hf]; decide

theorem mem_lineCandidates_consistent {L : Nat} {blocks : List Nat} {ls cand : Line}
    (h : cand ∈ lineCandidates L blocks ls) (j : Nat) (hj : j < L) :
    (ls.getD j UNKNOWN = FILLED → cand.getD j UNKNOWN = FILLED) ∧
    (ls.getD j UNKNOWN = EMPTY → cand.getD j UNKNOWN = EMPTY) := by
  cases blocks with
  | nil =>
      simp only [lineCandidates] at h
      obtain ⟨hnf, h⟩ := mem_ite_nil_left.mp h
      simp only [List.mem_singleton] at h
      subst h
      constructor
      · intro hF
        rcases Nat.lt_or_ge j ls.length with hlt | hge
        · exfalso
          apply hnf
          rw [List.getD_eq_getElem ls UNKNOWN hlt] at hF
          rw [← hF]
          exact List.getElem_mem _
        · rw [List.getD_eq_default ls UNKNOWN hge] at hF
          exact absurd hF (by decide)
      · intro _
        rw [getD_replicate]
        simp [hj]
  | cons b rest =>
      simp only [lineCandidates] at h
      have := mem_place_consistent (b :: rest) 0 cand h j (by omega)
      simpa using this

/-! ## Reducer lemmas -/

theorem intersect_length (c0 : Line) (rest : List Line) :
    (intersectCandidates (c0 :: rest)).length = c0.length := by
  simp [intersectCandidates]

theorem intersect_getD {c0 : Line} {rest : List Line} {i : Nat} (hi : i < c0.length) :
    (intersectCandidates (c0 :: rest)).getD i UNKNOWN =
      if ∀ cand ∈ rest, cand.getD i UNKNOWN = c0.getD i UNKNOWN then c0.getD i UNKNOWN
      else UNKNOWN := by
  simp only [intersectCandidates]
  rw [List.getD_eq_getElem _ _ (by simpa using hi)]
  simp

theorem intersect_getD_ge {c0 : Line} {rest : List Line} {i : Nat} (hi : c0.length ≤ i) :
    (intersectCandidates (c0 :: rest)).getD i UNKNOWN = UNKNOWN := by
  apply List.getD_eq_default
  simpa [intersectCandidates] using hi

theorem intersect_agree {c0 : Line} {rest : List Line} {i : Nat} {v : Int}
    (hi : i < c0.length) (hall : ∀ cand ∈ c0 :: rest, cand.getD i UNKNOWN = v) :
    (intersectCandidates (c0 :: rest)).getD i UNKNOWN = v := by
  rw [intersect_getD hi]
  have h0 : c0.getD i UNKNOWN = v := hall c0 (by simp)
  rw [if_pos]
  · exact h0
  · intro cand hc
    rw [hall cand (by simp [hc]), h0]

theorem intersect_ne_unknown {c0 : Line} {rest : List Line} {i : Nat} (hi : i < c0.length)
    (h : (intersectCandidates (c0 :: rest)).getD i UNKNOWN ≠ UNKNOWN) :
    (intersectCandidates (c0 :: rest)).getD i UNKNOWN = c0.getD i UNKNOWN := by
  rw [intersect_getD hi] at h ⊢
  split at h
  case isTrue hc => rw [if_pos hc]
  case isFalse => exact absurd rfl h

/-! ## One-line reduction -/

theorem reduceLine_none_iff {L : Nat} {blocks : List Nat} {line : Line} :
    reduceLine L blocks line = none ↔ lineCandidates L blocks line = [] := by
  unfold reduceLine
  split
  case isTrue hc => simpa using hc
  case isFalse hc => simpa using hc

theorem reduceLine_spec {w : Nat} {blocks : List Nat} {line line' : Line} {k : Nat}
    (hwf : WfLine w line) (h : reduceLine w blocks line = some (line', k)) :
    WfLine w line' ∧
    (∀ j, line.getD j UNKNOWN ≠ UNKNOWN → line'.getD j UNKNOWN = line.getD j UNKNOWN) ∧
    (k = 0 → line' = line) ∧
    line'.count UNKNOWN ≤ line.count UNKNOWN ∧
    (k ≠ 0 → line'.count UNKNOWN < line.count UNKNOWN) := by
  unfold reduceLine at h
  split at h
  case isTrue => exact absurd h (by simp)
  case isFalse hc =>
  simp only [Option.some_inj, Prod.mk.injEq] at h
  obtain ⟨hline', hk⟩ := h
  obtain ⟨c0, rest, hcands⟩ := List.exists_cons_of_ne_nil hc
  have hc0 : c0 ∈ lineCandidates w blocks line := by rw [hcands]; simp
  have hc0len : c0.length = w := mem_lineCandidates_length hc0
  have hinterlen : (intersectCandidates (lineCandidates w blocks line)).length = w := by
    rw [hcands, intersect_length, hc0len]
  have hlinelen : line.length = w := hwf.1
  have hlen' : line'.length = w := by
    rw [← hline', List.length_zipWith, hinterlen, hlinelen]
    simp
  have hgetD : ∀ j, j < w → line'.getD j UNKNOWN =
      updateCell (line.getD j UNKNOWN)
        ((intersectCandidates (lineCandidates w blocks line)).getD j UNKNOWN) := by
    intro j hj
    rw [← hline']
    exact getD_zipWith UNKNOWN UNKNOWN UNKNOWN (by omega) (by omega)
  have hagree : ∀ j, j < w → line.getD j UNKNOWN ≠ UNKNOWN →
      (intersectCandidates (lineCandidates w blocks line)).getD j UNKNOWN =
        line.getD j UNKNOWN := by
    intro j hj hne
    rw [hcands]
    apply intersect_agree (by omega)
    intro cand hcmem
    have hcons := mem_lineCandidates_consistent (hcands ▸ hcmem) j hj
    rcases wfLine_getD hwf j with hu | he | hf
    · exact absurd hu hne
    · rw [he] at hcons ⊢
      exact hcons.2 rfl
    · rw [hf] at hcons ⊢
      exact hcons.1 rfl
  have hpres : ∀ j, line.getD j UNKNOWN ≠ UNKNOWN →
      line'.getD j UNKNOWN = line.getD j UNKNOWN := by
    intro j hne
    rcases Nat.lt_or_ge j w with hj | hj
    · rw [hgetD j hj, hagree j hj hne]
      unfold updateCell
      simp
    · exact absurd (List.getD_eq_default line UNKNOWN (by omega)) hne
  have hUpres : ∀ j, j < line.length → line'.getD j UNKNOWN = UNKNOWN →
      line.getD j UNKNOWN = UNKNOWN := by
    intro j hj hU
    by_contra hne
    exact hne (by rw [← hpres j hne]; exact hU)
  refine ⟨?_, hpres, ?_, ?_, ?_⟩
  · refine wfLine_of_getD hlen' ?_
    intro j hj
    rw [hgetD j hj]
    unfold updateCell
    split
    case isTrue hcond =>
      have hval : (intersectCandidates (lineCandidates w blocks line)).getD j UNKNOWN =
          c0.getD j UNKNOWN := by
        rw [hcands]
        exact intersect_ne_unknown (by omega) (by rw [← hcands]; exact hcond.1)
      rw [hval]
      have hmem : c0.getD j UNKNOWN ∈ c0 := by
        rw [List.getD_eq_getElem c0 UNKNOWN (by omega)]
        exact List.getElem_mem _
      rcases mem_lineCandidates_cells hc0 _ hmem with he | hf
      · exact Or.inr (Or.inl he)
      · exact Or.inr (Or.inr hf)
    case isFalse => exact wfLine_getD hwf j
  · intro hk0
    have hw0 : lineWrites line (intersectCandidates (lineCandidates w blocks line)) = 0 := by
      rw [hk, hk0]
    rw [← hline']
    apply zipWith_eq_left UNKNOWN UNKNOWN (by omega)
    intro j hj
    have hnc := lineWrites_eq_zero.mp hw0 j (by omega)
    unfold updateCell
    rw [if_neg hnc]
  · exact count_unknown_le (by omega) hUpres
  · intro hkne
    have hwne : lineWrites line (intersectCandidates (lineCandidates w blocks line)) ≠ 0 := by
      rw [hk]
      exact hkne
    obtain ⟨j, hj, hvne, hdiff⟩ := lineWrites_ne_zero hwne
    have hU : line.getD j UNKNOWN = UNKNOWN := by
      by_contra hne
      exact hdiff (hagree j (by omega) hne).symm
    have hne' : line'.getD j UNKNOWN ≠ UNKNOWN := by
      rw [hgetD j (by omega)]
      unfold updateCell
      rw [if_pos ⟨hvne, hdiff⟩]
      exact hvne
    exact count_unknown_lt (by omega) hUpres ⟨j, by omega, hU, hne'⟩

/-! ## One-column reduction -/

theorem intersect_agree_determined {L : Nat} {blocks : List Nat} {line : Line}
    (hwf : WfLine L line) {j : Nat} (hj : j < L)
    (hcne : lineCandidates L blocks line ≠ [])
    (hne : line.getD j UNKNOWN ≠ UNKNOWN) :
    (intersectCandidates (lineCandidates L blocks line)).getD j UNKNOWN =
      line.getD j UNKNOWN := by
  obtain ⟨c0, rest, hcands⟩ := List.exists_cons_of_ne_nil hcne
  have hc0 : c0 ∈ lineCandidates L blocks line := by rw [hcands]; simp
  have hc0len : c0.length = L := mem_lineCandidates_length hc0
  rw [hcands]
  apply intersect_agree (by omega)
  intro cand hcmem
  have hcons := mem_lineCandidates_consistent (hcands ▸ hcmem) j hj
  rcases wfLine_getD hwf j with hu | he | hf
  · exact absurd hu hne
  · rw [he] at hcons ⊢
    exact hcons.2 rfl
  · rw [hf] at hcons ⊢
    exact hcons.1 rfl

theorem colLineState_getD {c : Nat} {g : Grid} {r : Nat} (hr : r < g.length) :
    (colLineState c g).getD r UNKNOWN = cellOf g r c := by
  unfold colLineState cellOf
  exact getD_map_lt UNKNOWN [] hr

theorem colLineState_wf {w h : Nat} {c : Nat} {g : Grid} (hg : WfGrid w h g) :
    WfLine h (colLineState c g) := by
  have hglen : g.length = h := hg.1
  refine wfLine_of_getD (by simp [colLineState, hglen]) ?_
  intro r hr
  rw [colLineState_getD (show r < g.length by omega)]
  exact wfGrid_cellOf hg r c

theorem colStep_spec {w h : Nat} {blocks : List Nat} {c : Nat} {g g' : Grid} {k : Nat}
    (hg : WfGrid w h g) (hc : c < w) (hstep : colStep h blocks c g = some (g', k)) :
    WfGrid w h g' ∧
    (∀ r j, cellOf g r j ≠ UNKNOWN → cellOf g' r j = cellOf g r j) ∧
    (k = 0 → g' = g) ∧
    countUnknown g' ≤ countUnknown g ∧
    (k ≠ 0 → countUnknown g' < countUnknown g) := by
  have hglen : g.length = h := hg.1
  have hwline : WfLine h (colLineState c g) := colLineState_wf hg
  have hlinelen : (colLineState c g).length = h := hwline.1
  unfold colStep at hstep
  split at hstep
  case isTrue => exact absurd hstep (by simp)
  case isFalse hcne =>
  simp only [Option.some_inj, Prod.mk.injEq] at hstep
  obtain ⟨hg', hk⟩ := hstep
  obtain ⟨c0, rest, hcands⟩ := List.exists_cons_of_ne_nil hcne
  have hc0 : c0 ∈ lineCandidates h blocks (colLineState c g) := by rw [hcands]; simp
  have hc0len : c0.length = h := mem_lineCandidates_length hc0
  have hinterlen :
      (intersectCandidates (lineCandidates h blocks (colLineState c g))).length = h := by
    rw [hcands, intersect_length, hc0len]
  have hglen' : g'.length = h := by
    rw [← hg', List.length_zipWith, hinterlen, hglen]
    simp
  have hrow : ∀ r, r < h → g'.getD r [] =
      colUpdateRow c (g.getD r [])
        ((intersectCandidates (lineCandidates h blocks (colLineState c g))).getD r
          UNKNOWN) := by
    intro r hr
    rw [← hg']
    exact getD_zipWith [] [] UNKNOWN (by omega) (by omega)
  have hagree : ∀ r, r < h → cellOf g r c ≠ UNKNOWN →
      (intersectCandidates (lineCandidates h blocks (colLineState c g))).getD r UNKNOWN =
        cellOf g r c := by
    intro r hr hne
    rw [← colLineState_getD (show r < g.length by omega)] at hne ⊢
    exact intersect_agree_determined hwline hr hcne hne
  have hrowpres : ∀ r, r < h → ∀ j, cellOf g r j ≠ UNKNOWN →
      cellOf g' r j = cellOf g r j := by
    intro r hr j hne
    unfold cellOf
    rw [hrow r hr]
    unfold colUpdateRow
    split
    case isFalse => rfl
    case isTrue hcond =>
      by_cases hjc : j = c
      · exfalso
        rw [hjc] at hne
        exact hcond.2 (hagree r hr hne).symm
      · rw [getD_set_ne (fun he => hjc he.symm)]
  have hrowle : ∀ r, r < g.length →
      (g'.getD r []).count UNKNOWN ≤ (g.getD r []).count UNKNOWN := by
    intro r hr
    have hrh : r < h := by omega
    have hwf_r : WfLine w (g.getD r []) := wfGrid_row hg r hr
    rw [hrow r hrh]
    unfold colUpdateRow
    split
    case isFalse => exact le_refl _
    case isTrue hcond =>
      apply count_unknown_le (by rw [List.length_set])
      intro j hj hU
      by_cases hjc : j = c
      · rw [hjc, getD_set_self (by omega)] at hU
        exact absurd hU hcond.1
      · rwa [getD_set_ne (fun he => hjc he.symm)] at hU
  refine ⟨?_, ?_, ?_, ?_, ?_⟩
  · constructor
    · rw [hglen']
    · intro row hrowmem
      obtain ⟨r, hr, rfl⟩ := List.mem_iff_getElem.mp hrowmem
      rw [← List.getD_eq_getElem g' [] hr]
      have hrh : r < h := by omega
      rw [hrow r hrh]
      have hwf_r : WfLine w (g.getD r []) := wfGrid_row hg r (by omega)
      unfold colUpdateRow
      split
      case isFalse => exact hwf_r
      case isTrue hcond =>
        refine wfLine_of_getD (by rw [List.length_set]; exact hwf_r.1) ?_
        intro j hj
        by_cases hjc : j = c
        · rw [hjc, getD_set_self (by omega)]
          have hval : (intersectCandidates
              (lineCandidates h blocks (colLineState c g))).getD r UNKNOWN =
              c0.getD r UNKNOWN := by
            rw [hcands]
            exact intersect_ne_unknown (by omega) (by rw [← hcands]; exact hcond.1)
          rw [hval]
          have hmem : c0.getD r UNKNOWN ∈ c0 := by
            rw [List.getD_eq_getElem c0 UNKNOWN (by omega)]
            exact List.getElem_mem _
          rcases mem_lineCandidates_cells hc0 _ hmem with he | hf
          · exact Or.inr (Or.inl he)
          · exact Or.inr (Or.inr hf)
        · rw [getD_set_ne (fun he => hjc he.symm)]
          exact wfLine_getD hwf_r j
  · intro r j hne
    rcases Nat.lt_or_ge r h with hr | hr
    · exact hrowpres r hr j hne
    · exact absurd (cellOf_out_of_range j (by omega)) hne
  · intro hk0
    have hw0 : lineWrites (colLineState c g)
        (intersectCandidates (lineCandidates h blocks (colLineState c g))) = 0 := by
      rw [hk, hk0]
    rw [← hg']
    apply zipWith_eq_left ([] : Line) UNKNOWN (by omega)
    intro r hr
    have hnc := lineWrites_eq_zero.mp hw0 r (by omega)
    have hncond : ¬((intersectCandidates
        (lineCandidates h blocks (colLineState c g))).getD r UNKNOWN ≠ UNKNOWN ∧
        (g.getD r []).getD c UNKNOWN ≠
          (intersectCandidates
            (lineCandidates h blocks (colLineState c g))).getD r UNKNOWN) := by
      intro hcond
      apply hnc
      refine ⟨hcond.1, ?_⟩
      rw [colLineState_getD (show r < g.length by omega)]
      exact hcond.2
    unfold colUpdateRow
    rw [if_neg hncond]
  · exact countUnknown_le_grid (by omega) hrowle
  · intro hkne
    have hwne : lineWrites (colLineState c g)
        (intersectCandidates (lineCandidates h blocks (colLineState c g))) ≠ 0 := by
      rw [hk]
      exact hkne
    obtain ⟨r, hr, hvne, hdiff⟩ := lineWrites_ne_zero hwne
    have hrh : r < h := by omega
    have hwf_r : WfLine w (g.getD r []) := wfGrid_row hg r (by omega)
    have hcellU : cellOf g r c = UNKNOWN := by
      by_contra hne
      apply hdiff
      rw [colLineState_getD (show r < g.length by omega)]
      exact (hagree r hrh hne).symm
    apply countUnknown_lt_grid (by omega) hrowle
    refine ⟨r, by omega, ?_⟩
    rw [hrow r hrh]
    have hcond : (intersectCandidates
        (lineCandidates h blocks (colLineState c g))).getD r UNKNOWN ≠ UNKNOWN ∧
        (g.getD r []).getD c UNKNOWN ≠
          (intersectCandidates
            (lineCandidates h blocks (colLineState c g))).getD r UNKNOWN := by
      refine ⟨hvne, ?_⟩
      rw [show (g.getD r []).getD c UNKNOWN = cellOf g r c from rfl, hcellU]
      exact fun he => hvne he.symm
    unfold colUpdateRow
    rw [if_pos hcond]
    apply count_unknown_lt (by rw [List.length_set])
    · intro j hj hU
      by_cases hjc : j = c
      · rw [hjc, getD_set_self (by omega)] at hU
        exact absurd hU hcond.1
      · rwa [getD_set_ne (fun he => hjc he.symm)] at hU
    · refine ⟨c, by omega, hcellU, ?_⟩
      rw [getD_set_self (by omega)]
      exact hcond.1

/-! ## Pass lemmas -/

theorem rowsPass_spec {w : Nat} : ∀ (clues : List (List Nat)) (rows : List Line)
    (ok : Bool) (rows' : List Line) (k : Nat),
    (∀ row ∈ rows, WfLine w row) → rowsPass w clues rows = (ok, rows', k) →
    (∀ row ∈ rows', WfLine w row) ∧ rows'.length = rows.length ∧
    (∀ r j, cellOf rows r j ≠ UNKNOWN → cellOf rows' r j = cellOf rows r j) ∧
    (k = 0 → rows' = rows) ∧
    countUnknown rows' ≤ countUnknown rows ∧
    (k ≠ 0 → countUnknown rows' < countUnknown rows) := by
  intro clues rows
  induction rows generalizing clues with
  | nil =>
      intro ok rows' k _ h
      simp only [rowsPass, Prod.mk.injEq] at h
      obtain ⟨h1, h2, h3⟩ := h
      subst h2
      subst h3
      exact ⟨by simp, rfl, fun r j _ => rfl, fun _ => rfl, le_refl _, fun hk => absurd rfl hk⟩
  | cons row rest ih =>
      intro ok rows' k hwf h
      simp only [rowsPass] at h
      cases hred : reduceLine w (clues.headD []) row with
      | none =>
          rw [hred] at h
          simp only [Prod.mk.injEq] at h
          obtain ⟨h1, h2, h3⟩ := h
          subst h2
          subst h3
          exact ⟨hwf, rfl, fun r j _ => rfl, fun _ => rfl, le_refl _, fun hk => absurd rfl hk⟩
      | some pr =>
          obtain ⟨row', k1⟩ := pr
          rw [hred] at h
          simp only [Prod.mk.injEq] at h
          obtain ⟨h1, h2, h3⟩ := h
          have hrow := reduceLine_spec (hwf row (by simp)) hred
          have hrest := ih clues.tail
            (rowsPass w clues.tail rest).1 (rowsPass w clues.tail rest).2.1
            (rowsPass w clues.tail rest).2.2
            (fun r hr => hwf r (by simp [hr])) rfl
          subst h2
          subst h3
          refine ⟨?_, ?_, ?_, ?_, ?_, ?_⟩
          · intro r hr
            rcases List.mem_cons.mp hr with hr | hr
            · subst hr
              exact hrow.1
            · exact hrest.1 r hr
          · simp [hrest.2.1]
          · intro r j hne
            cases r with
            | zero =>
                rw [cellOf_cons_zero] at hne ⊢
                rw [cellOf_cons_zero]
                exact hrow.2.1 j hne
            | succ r =>
                rw [cellOf_cons_succ] at hne ⊢
                rw [cellOf_cons_succ]
                exact hrest.2.2.1 r j hne
          · intro hk0
            have hk1 : k1 = 0 := by omega
            have hk2 : (rowsPass w clues.tail rest).2.2 = 0 := by omega
            rw [hrow.2.2.1 hk1, hrest.2.2.2.1 hk2]
          · simp only [countUnknown_cons]
            have := hrow.2.2.2.1
            have := hrest.2.2.2.2.1
            omega
          · intro hkne
            simp only [countUnknown_cons]
            have hle1 := hrow.2.2.2.1
            have hle2 := hrest.2.2.2.2.1
            rcases Nat.eq_zero_or_pos k1 with hk1 | hk1
            · have hk2 : (rowsPass w clues.tail rest).2.2 ≠ 0 := by omega
              have := hrest.2.2.2.2.2 hk2
              omega
            · have := hrow.2.2.2.2 (by omega)
              omega

theorem colsPass_spec {w h : Nat} {colClues : List (List Nat)} :
    ∀ (cs : List Nat) (g : Grid) (ok : Bool) (g' : Grid) (k : Nat),
    WfGrid w h g → (∀ c ∈ cs, c < w) → colsPass h colClues cs g = (ok, g', k) →
    WfGrid w h g' ∧
    (∀ r j, cellOf g r j ≠ UNKNOWN → cellOf g' r j = cellOf g r j) ∧
    (k = 0 → g' = g) ∧
    countUnknown g' ≤ countUnknown g ∧
    (k ≠ 0 → countUnknown g' < countUnknown g) := by
  intro cs
  induction cs with
  | nil =>
      intro g ok g' k hg _ hpass
      simp only [colsPass, Prod.mk.injEq] at hpass
      obtain ⟨h1, h2, h3⟩ := hpass
      subst h2
      subst h3
      exact ⟨hg, fun r j _ => rfl, fun _ => rfl, le_refl _, fun hk => absurd rfl hk⟩
  | cons c cs ih =>
      intro g ok g' k hg hcs hpass
      simp only [colsPass] at hpass
      cases hcol : colStep h (colClues.getD c []) c g with
      | none =>
          rw [hcol] at hpass
          simp only [Prod.mk.injEq] at hpass
          obtain ⟨h1, h2, h3⟩ := hpass
          subst h2
          subst h3
          exact ⟨hg, fun r j _ => rfl, fun _ => rfl, le_refl _, fun hk => absurd rfl hk⟩
      | some pr =>
          obtain ⟨g1, k1⟩ := pr
          rw [hcol] at hpass
          simp only [Prod.mk.injEq] at hpass
          obtain ⟨h1, h2, h3⟩ := hpass
          have hstep := colStep_spec hg (hcs c (by simp)) hcol
          have hrest := ih g1 (colsPass h colClues cs g1).1 (colsPass h colClues cs g1).2.1
            (colsPass h colClues cs g1).2.2 hstep.1 (fun c' hc' => hcs c' (by simp [hc'])) rfl
          subst h2
          subst h3
          refine ⟨hrest.1, ?_, ?_, ?_, ?_⟩
          · intro r j hne
            have e1 := hstep.2.1 r j hne
            have e2 := hrest.2.1 r j (by rw [e1]; exact hne)
            rw [e2, e1]
          · intro hk0
            have hk1 : k1 = 0 := by omega
            have hk2 : (colsPass h colClues cs g1).2.2 = 0 := by omega
            rw [hrest.2.2.1 hk2, hstep.2.2.1 hk1]
          · have := hstep.2.2.2.1
            have := hrest.2.2.2.1
            omega
          · intro hkne
            have hle1 := hstep.2.2.2.1
            have hle2 := hrest.2.2.2.1
            rcases Nat.eq_zero_or_pos k1 with hk1 | hk1
            · have hk2 : (colsPass h colClues cs g1).2.2 ≠ 0 := by omega
              have := hrest.2.2.2.2 hk2
              omega
            · have := hstep.2.2.2.2 (by omega)
              omega

theorem fullPass_spec {w h : Nat} {rowClues colClues : List (List Nat)} {g : Grid}
    {ok : Bool} {g' : Grid} {k : Nat} (hg : WfGrid w h g)
    (hp : fullPass w h rowClues colClues g = (ok, g', k)) :
    WfGrid w h g' ∧
    (∀ r j, cellOf g r j ≠ UNKNOWN → cellOf g' r j = cellOf g r j) ∧
    (k = 0 → g' = g) ∧
    countUnknown g' ≤ countUnknown g ∧
    (k ≠ 0 → countUnknown g' < countUnknown g) := by
  rcases hrp : rowsPass w rowClues g with ⟨ok1, g1, k1⟩
  have hrows := rowsPass_spec rowClues g ok1 g1 k1 hg.2 hrp
  have hg1 : WfGrid w h g1 := ⟨by rw [hrows.2.1]; exact hg.1, hrows.1⟩
  unfold fullPass at hp
  rw [hrp] at hp
  simp only at hp
  cases ok1 with
  | false =>
      simp only [Bool.false_eq_true, if_false, Prod.mk.injEq] at hp
      obtain ⟨h1, h2, h3⟩ := hp
      subst h2
      subst h3
      exact ⟨hg1, hrows.2.2.1, fun hk0 => hrows.2.2.2.1 hk0, hrows.2.2.2.2.1,
        hrows.2.2.2.2.2⟩
  | true =>
      simp only [if_true, Prod.mk.injEq] at hp
      rcases hcp : colsPass h colClues (List.range w) g1 with ⟨ok2, g2, k2⟩
      rw [hcp] at hp
      simp only at hp
      obtain ⟨h1, h2, h3⟩ := hp
      have hcols := colsPass_spec (List.range w) g1 ok2 g2 k2 hg1
        (fun c hc => List.mem_range.mp hc) hcp
      subst h2
      subst h3
      refine ⟨hcols.1, ?_, ?_, ?_, ?_⟩
      · intro r j hne
        have e1 := hrows.2.2.1 r j hne
        have e2 := hcols.2.1 r j (by rw [e1]; exact hne)
        rw [e2, e1]
      · intro hk0
        have hk1 : k1 = 0 := by omega
        have hk2 : k2 = 0 := by omega
        rw [hcols.2.2.1 hk2, hrows.2.2.2.1 hk1]
      · have := hrows.2.2.2.2.1
        have := hcols.2.2.2.1
        omega
      · intro hkne
        have hle1 := hrows.2.2.2.2.1
        have hle2 := hcols.2.2.2.1
        rcases Nat.eq_zero_or_pos k1 with hk1 | hk1
        · have := hcols.2.2.2.2 (by omega)
          omega
        · have := hrows.2.2.2.2.2 (by omega)
          omega

/-! ## Propagation loop lemmas -/

theorem wfGrid_width {w h : Nat} {g : Grid} (hg : WfGrid w h g) (hpos : 0 < h) :
    (g.headD []).length = w := by
  cases g with
  | nil =>
      exfalso
      have h0 := hg.1
      simp only [List.length_nil] at h0
      omega
  | cons row rest => exact (hg.2 row (by simp)).1

theorem wfGrid_self_dims {w h : Nat} {g : Grid} (hg : WfGrid w h g) :
    WfGrid (g.headD []).length g.length g := by
  cases g with
  | nil => exact ⟨rfl, by simp⟩
  | cons row rest =>
      refine ⟨rfl, ?_⟩
      intro r hr
      have := hg.2 r hr
      have hw : row.length = w := (hg.2 row (by simp)).1
      simpa [hw] using this

theorem propagateAux_done_spec {cancel : Bool} {w h : Nat}
    {rowClues colClues : List (List Nat)} :
    ∀ (fuel : Nat) (g : Grid) (ok : Bool) (g' : Grid) (n : Nat),
    WfGrid w h g →
    propagateAux cancel w h rowClues colClues fuel g = .done ok g' n →
    WfGrid w h g' ∧
    (∀ r j, cellOf g r j ≠ UNKNOWN → cellOf g' r j = cellOf g r j) ∧
    countUnknown g' ≤ countUnknown g ∧
    (ok = true → fullPass w h rowClues colClues g' = (true, g', 0)) := by
  intro fuel
  induction fuel with
  | zero =>
      intro g ok g' n _ hrun
      simp [propagateAux] at hrun
  | succ fuel ih =>
      intro g ok g' n hg hrun
      simp only [propagateAux] at hrun
      by_cases hcancel : cancel
      · simp [hcancel] at hrun
      rw [if_neg hcancel] at hrun
      rcases hp : fullPass w h rowClues colClues g with ⟨ok1, g1, k1⟩
      rw [hp] at hrun
      simp only at hrun
      have hpass := fullPass_spec hg hp
      cases ok1 with
      | false =>
          simp only [Bool.false_eq_true, if_true, PropOutcome.done.injEq] at hrun
          obtain ⟨h1, h2, h3⟩ := hrun
          subst h1
          subst h2
          exact ⟨hpass.1, hpass.2.1, hpass.2.2.2.1, fun hok => by simp at hok⟩
      | true =>
          simp only [if_neg (by simp : ¬(true = false))] at hrun
          by_cases hk1 : k1 = 0
          · rw [if_pos hk1] at hrun
            simp only [PropOutcome.done.injEq] at hrun
            obtain ⟨h1, h2, h3⟩ := hrun
            subst h1
            subst h2
            have hgeq : g1 = g := hpass.2.2.1 hk1
            refine ⟨hpass.1, hpass.2.1, hpass.2.2.2.1, fun _ => ?_⟩
            rw [hgeq] at hp ⊢
            rw [hp, hk1]
          · rw [if_neg hk1] at hrun
            cases hrec : propagateAux cancel w h rowClues colClues fuel g1 with
            | cancelled => rw [hrec] at hrun; simp at hrun
            | fuelOut => rw [hrec] at hrun; simp at hrun
            | done ok2 g2 n2 =>
                rw [hrec] at hrun
                simp only [PropOutcome.done.injEq] at hrun
                obtain ⟨h1, h2, h3⟩ := hrun
                subst h1
                subst h2
                have hrest := ih g1 ok2 g2 n2 hpass.1 hrec
                refine ⟨hrest.1, ?_, by
                  have := hpass.2.2.2.1
                  have := hrest.2.2.1
                  omega, hrest.2.2.2⟩
                intro r j hne
                have e1 := hpass.2.1 r j hne
                have e2 := hrest.2.1 r j (by rw [e1]; exact hne)
                rw [e2, e1]

theorem propagateAux_ne_fuelOut {cancel : Bool} {w h : Nat}
    {rowClues colClues : List (List Nat)} :
    ∀ (fuel : Nat) (g : Grid), WfGrid w h g → countUnknown g < fuel →
    propagateAux cancel w h rowClues colClues fuel g ≠ .fuelOut := by
  intro fuel
  induction fuel with
  | zero => intro g _ hlt; omega
  | succ fuel ih =>
      intro g hg hlt
      simp only [propagateAux]
      by_cases hcancel : cancel
      · simp [hcancel]
      rw [if_neg hcancel]
      rcases hp : fullPass w h rowClues colClues g with ⟨ok1, g1, k1⟩
      simp only
      have hpass := fullPass_spec hg hp
      cases ok1 with
      | false => simp
      | true =>
          simp only [if_neg (by simp : ¬(true = false))]
          by_cases hk1 : k1 = 0
          · rw [if_pos hk1]
            simp
          · rw [if_neg hk1]
            have hstrict := hpass.2.2.2.2 hk1
            have hne := ih g1 hpass.1 (by omega)
            cases hrec : propagateAux cancel w h rowClues colClues fuel g1 with
            | cancelled => simp
            | fuelOut => exact absurd hrec hne
            | done ok2 g2 n2 => simp

theorem propagate_ne_fuelOut {cancel : Bool} {w h : Nat} {g : Grid}
    {rowClues colClues : List (List Nat)} (hg : WfGrid w h g) :
    propagate cancel g rowClues colClues ≠ .fuelOut := by
  unfold propagate
  exact propagateAux_ne_fuelOut (countUnknown g + 1) g (wfGrid_self_dims hg) (by omega)

theorem propagate_done_spec {cancel : Bool} {w h : Nat} {g : Grid}
    {rowClues colClues : List (List Nat)} {ok : Bool} {g' : Grid} {n : Nat}
    (hg : WfGrid w h g)
    (hrun : propagate cancel g rowClues colClues = .done ok g' n) :
    WfGrid w h g' ∧
    (∀ r j, cellOf g r j ≠ UNKNOWN → cellOf g' r j = cellOf g r j) ∧
    countUnknown g' ≤ countUnknown g := by
  unfold propagate at hrun
  have hspec := propagateAux_done_spec (countUnknown g + 1) g ok g' n (wfGrid_self_dims hg) hrun
  have hlen : g'.length = g.length := hspec.1.1
  refine ⟨⟨by rw [hlen]; exact hg.1, ?_⟩, hspec.2.1, hspec.2.2.1⟩
  cases g with
  | nil =>
      have : g' = [] := by
        have := hspec.1.1
        simpa [List.length_eq_zero] using this
      simp [this]
  | cons row rest =>
      intro r hr
      have hw : row.length = w := (hg.2 row (by simp)).1
      have := hspec.1.2 r hr
      simpa [hw] using this

theorem propagate_fixpoint {cancel : Bool} {w h : Nat} {g g' : Grid}
    {rowClues colClues : List (List Nat)} {n : Nat}
    (hg : WfGrid w h g) (hpos : 0 < h)
    (hrun : propagate cancel g rowClues colClues = .done true g' n) :
    propagate cancel g' rowClues colClues = .done true g' 1 := by
  have hcf : cancel = false := by
    cases hc : cancel
    · rfl
    · exfalso
      unfold propagate at hrun
      rw [hc] at hrun
      simp [propagateAux] at hrun
  subst hcf
  unfold propagate at hrun
  have hspec := propagateAux_done_spec (countUnknown g + 1) g true g' n
    (wfGrid_self_dims hg) hrun
  have hfix := hspec.2.2.2 rfl
  have hg' : WfGrid (g.headD []).length g.length g' := hspec.1
  have hlen' : g'.length = g.length := hg'.1
  have hposg : 0 < g.length := by rw [hg.1]; exact hpos
  have hw' : (g'.headD []).length = (g.headD []).length := wfGrid_width hg' hposg
  unfold propagate
  rw [hw', hlen']
  simp only [propagateAux]
  rw [hfix]
  simp

/-! ## Overfull clues -/

theorem lineCandidates_overfull {L : Nat} {b : Nat} {rest : List Nat} {ls : Line}
    (hover : L + 1 ≤ b + rest.sum + rest.length) :
    lineCandidates L (b :: rest) ls = [] := by
  unfold lineCandidates
  simp only [place]
  have hn : L + 1 - (b + (rest.sum + rest.length)) - 0 = 0 := by omega
  rw [hn]
  simp

/-! ## Candidate count of a single block over an all-Unknown line -/

theorem sum_map_one {α : Type} : ∀ (l : List α) (f : α → Nat), (∀ x ∈ l, f x = 1) →
    (l.map f).sum = l.length := by
  intro l f
  induction l with
  | nil => intro _; rfl
  | cons a t ih =>
      intro hone
      simp only [List.map_cons, List.sum_cons, List.length_cons, hone a (by simp),
        ih (fun x hx => hone x (by simp [hx]))]
      omega

theorem lineCandidates_single_block_all_unknown {n : Nat} :
    (lineCandidates n [1] (List.replicate n UNKNOWN)).length = n := by
  have hU : ∀ i : Nat, (List.replicate n UNKNOWN).getD i UNKNOWN = UNKNOWN := by
    intro i
    rw [getD_replicate]
    split <;> rfl
  unfold lineCandidates
  simp only [place, List.sum_nil, List.length_nil]
  rw [List.length_flatMap]
  have hn : n + 1 - (1 + (0 + 0)) - 0 = n := by omega
  rw [hn]
  rw [sum_map_one]
  · simp
  · intro start hstart
    simp only [Function.comp]
    rw [if_pos (by intro i _; rw [hU]; decide),
        if_pos (by intro i _; rw [hU]; decide),
        if_pos (by intro i _; rw [hU]; decide)]
    rfl

/-! ## Branch selector fold characterisation -/

theorem branchFold_spec {w h : Nat} {rowClues colClues : List (List Nat)} {g : Grid} :
    ∀ (l : List (String × Nat)) (st : String × Int × List Line × Nat),
      (l.foldl (branchStep w h rowClues colClues g) st = st ∧
        ∀ p ∈ l, UNKNOWN ∈ lineStateAt g p →
          1 < (candsAt w h rowClues colClues g p).length →
          st.2.2.2 ≤ (candsAt w h rowClues colClues g p).length) ∨
      (∃ l1 p l2, l = l1 ++ p :: l2 ∧ UNKNOWN ∈ lineStateAt g p ∧
        1 < (candsAt w h rowClues colClues g p).length ∧
        (candsAt w h rowClues colClues g p).length < st.2.2.2 ∧
        l.foldl (branchStep w h rowClues colClues g) st =
          (p.1, (p.2 : Int), candsAt w h rowClues colClues g p,
            (candsAt w h rowClues colClues g p).length) ∧
        (∀ q ∈ l, UNKNOWN ∈ lineStateAt g q →
          1 < (candsAt w h rowClues colClues g q).length →
          (candsAt w h rowClues colClues g p).length ≤
            (candsAt w h rowClues colClues g q).length) ∧
        (∀ q ∈ l1, UNKNOWN ∈ lineStateAt g q →
          1 < (candsAt w h rowClues colClues g q).length →
          (candsAt w h rowClues colClues g p).length <
            (candsAt w h rowClues colClues g q).length)) := by
  intro l
  induction l with
  | nil =>
      intro st
      exact Or.inl ⟨rfl, by simp⟩
  | cons x rest ih =>
      intro st
      simp only [List.foldl_cons]
      by_cases hunk : UNKNOWN ∈ lineStateAt g x
      · by_cases hcond : 1 < (candsAt w h rowClues colClues g x).length ∧
            (candsAt w h rowClues colClues g x).length < st.2.2.2
        · have hstep : branchStep w h rowClues colClues g st x =
              (x.1, (x.2 : Int), candsAt w h rowClues colClues g x,
                (candsAt w h rowClues colClues g x).length) := by
            unfold branchStep
            rw [if_pos hunk, if_pos hcond]
          rw [hstep]
          rcases ih (x.1, (x.2 : Int), candsAt w h rowClues colClues g x,
              (candsAt w h rowClues colClues g x).length) with ⟨heq, hmin⟩ |
              ⟨l1, p, l2, hsplit, hu, h1, hlt, heq, hall, hfirst⟩
          · refine Or.inr ⟨[], x, rest, by simp, hunk, hcond.1, hcond.2, by rw [heq], ?_, by simp⟩
            intro q hq hq1 hq2
            rcases List.mem_cons.mp hq with hq | hq
            · subst hq
              exact le_refl _
            · exact hmin q hq hq1 hq2
          · refine Or.inr ⟨x :: l1, p, l2, by rw [hsplit]; rfl, hu, h1, ?_, heq, ?_, ?_⟩
            · exact lt_trans hlt hcond.2
            · intro q hq hq1 hq2
              rcases List.mem_cons.mp hq with hq | hq
              · subst hq
                exact le_of_lt hlt
              · exact hall q (hsplit ▸ hq) hq1 hq2
            · intro q hq hq1 hq2
              rcases List.mem_cons.mp hq with hq | hq
              · subst hq
                exact hlt
              · exact hfirst q hq hq1 hq2
        · have hstep : branchStep w h rowClues colClues g st x = st := by
            unfold branchStep
            rw [if_pos hunk, if_neg hcond]
          rw [hstep]
          rcases ih st with ⟨heq, hmin⟩ | ⟨l1, p, l2, hsplit, hu, h1, hlt, heq, hall, hfirst⟩
          · refine Or.inl ⟨heq, ?_⟩
            intro q hq hq1 hq2
            rcases List.mem_cons.mp hq with hq | hq
            · subst hq
              omega
            · exact hmin q hq hq1 hq2
          · refine Or.inr ⟨x :: l1, p, l2, by rw [hsplit]; rfl, hu, h1, hlt, heq, ?_, ?_⟩
            · intro q hq hq1 hq2
              rcases List.mem_cons.mp hq with hq | hq
              · subst hq
                omega
              · exact hall q (hsplit ▸ hq) hq1 hq2
            · intro q hq hq1 hq2
              rcases List.mem_cons.mp hq with hq | hq
              · subst hq
                omega
              · exact hfirst q hq hq1 hq2
      · have hstep : branchStep w h rowClues colClues g st x = st := by
          unfold branchStep
          rw [if_neg hunk]
        rw [hstep]
        rcases ih st with ⟨heq, hmin⟩ | ⟨l1, p, l2, hsplit, hu, h1, hlt, heq, hall, hfirst⟩
        · refine Or.inl ⟨heq, ?_⟩
          intro q hq hq1 hq2
          rcases List.mem_cons.mp hq with hq | hq
          · subst hq
            exact absurd hq1 hunk
          · exact hmin q hq hq1 hq2
        · refine Or.inr ⟨x :: l1, p, l2, by rw [hsplit]; rfl, hu, h1, hlt, heq, ?_, ?_⟩
          · intro q hq hq1 hq2
            rcases List.mem_cons.mp hq with hq | hq
            · subst hq
              exact absurd hq1 hunk
            · exact hall q (hsplit ▸ hq) hq1 hq2
          · intro q hq hq1 hq2
            rcases List.mem_cons.mp hq with hq | hq
            · subst hq
              exact absurd hq1 hunk
            · exact hfirst q hq hq1 hq2

theorem lineStateAt_row {g : Grid} {r : Nat} :
    lineStateAt g ("row", r) = g.getD r [] := rfl

theorem lineStateAt_col {g : Grid} {c : Nat} :
    lineStateAt g ("col", c) = colLineState c g := by
  unfold lineStateAt colLineState
  rw [if_neg (by simp)]

theorem mem_scanOrder {h w : Nat} {p : String × Nat} :
    p ∈ scanOrder h w ↔ (p.1 = "row" ∧ p.2 < h) ∨ (p.1 = "col" ∧ p.2 < w) := by
  unfold scanOrder
  rw [List.mem_append]
  simp only [List.mem_map, List.mem_range]
  constructor
  · rintro (⟨r, hr, rfl⟩ | ⟨c, hc, rfl⟩)
    · exact Or.inl ⟨rfl, hr⟩
    · exact Or.inr ⟨rfl, hc⟩
  · rcases p with ⟨t, i⟩
    rintro (⟨ht, hi⟩ | ⟨ht, hi⟩)
    · subst ht
      exact Or.inl ⟨i, hi, rfl⟩
    · subst ht
      exact Or.inr ⟨i, hi, rfl⟩

theorem bestBranchLine_choice {g : Grid} {rowClues colClues : List (List Nat)}
    {t : String} {i : Int} {cands : List Line}
    (hres : bestBranchLine g rowClues colClues = (t, i, cands)) (hne : cands ≠ []) :
    ∃ p ∈ scanOrder g.length (g.headD []).length,
      t = p.1 ∧ i = (p.2 : Int) ∧
      cands = candsAt (g.headD []).length g.length rowClues colClues g p ∧
      UNKNOWN ∈ lineStateAt g p ∧ 1 < cands.length := by
  unfold bestBranchLine at hres
  simp only at hres
  rcases branchFold_spec (scanOrder g.length (g.headD []).length) branchInit with
    ⟨heq, -⟩ | ⟨l1, p, l2, hsplit, hu, h1, hlt, heq, hall, hfirst⟩
  · rw [heq] at hres
    simp only [branchInit, Prod.mk.injEq] at hres
    exact absurd hres.2.2.symm hne
  · rw [heq] at hres
    simp only [Prod.mk.injEq] at hres
    obtain ⟨ht, hi, hcands⟩ := hres
    refine ⟨p, by rw [hsplit]; simp, ht.symm, hi.symm, hcands.symm, hu, ?_⟩
    rw [← hcands]
    exact h1

/-! ## Branch grids -/

theorem count_unknown_zero_of_cells {l : Line}
    (h : ∀ v ∈ l, v = EMPTY ∨ v = FILLED) : l.count UNKNOWN = 0 := by
  rw [List.count_eq_zero]
  intro hmem
  rcases h UNKNOWN hmem with he | he <;> exact absurd he (by decide)

theorem count_unknown_pos_of_mem {l : Line} (h : UNKNOWN ∈ l) :
    0 < l.count UNKNOWN := by
  rcases Nat.eq_zero_or_pos (l.count UNKNOWN) with h0 | h0
  · exact absurd (List.count_eq_zero.mp h0) (by simp [h])
  · exact h0

theorem countUnknown_set_lt : ∀ (g : Grid) (r : Nat) (row' : Line), r < g.length →
    row'.count UNKNOWN = 0 → 0 < (g.getD r []).count UNKNOWN →
    countUnknown (g.set r row') < countUnknown g := by
  intro g
  induction g with
  | nil => intro r row' hr _ _; simp at hr
  | cons row rest ih =>
      intro r row' hr h0 hpos
      cases r with
      | zero =>
          simp only [List.set_cons_zero, countUnknown_cons]
          simp only [List.getD_cons_zero] at hpos
          omega
      | succ r =>
          simp only [List.set_cons_succ, countUnknown_cons]
          simp only [List.getD_cons_succ] at hpos
          have := ih r row' (by simpa using hr) h0 hpos
          omega

theorem wfGrid_set_row {w h : Nat} {g : Grid} {r : Nat} {cand : Line}
    (hg : WfGrid w h g) (hlen : cand.length = w)
    (hcells : ∀ v ∈ cand, v = EMPTY ∨ v = FILLED) :
    WfGrid w h (g.set r cand) := by
  refine ⟨by rw [List.length_set]; exact hg.1, ?_⟩
  intro row hrow
  rcases List.mem_or_eq_of_mem_set hrow with hmem | heq
  · exact hg.2 row hmem
  · subst heq
    refine ⟨hlen, ?_⟩
    intro v hv
    rcases hcells v hv with he | hf
    · exact Or.inr (Or.inl he)
    · exact Or.inr (Or.inr hf)

theorem applyCandidate_col_rows {g : Grid} {c : Nat} {cand : Line} {r : Nat}
    (hr : r < g.length) (hrc : r < cand.length) :
    (applyCandidate "col" c cand g).getD r [] =
      (g.getD r []).set c (cand.getD r UNKNOWN) := by
  unfold applyCandidate
  rw [if_neg (by simp)]
  exact getD_zipWith [] [] UNKNOWN hr hrc

theorem applyCandidate_col_wf {w h : Nat} {g : Grid} {c : Nat} {cand : Line}
    (hg : WfGrid w h g) (hlen : cand.length = h)
    (hcells : ∀ v ∈ cand, v = EMPTY ∨ v = FILLED) :
    WfGrid w h (applyCandidate "col" c cand g) := by
  have hglen : g.length = h := hg.1
  have hlen' : (applyCandidate "col" c cand g).length = h := by
    unfold applyCandidate
    rw [if_neg (by simp), List.length_zipWith, hglen, hlen]
    simp
  refine ⟨hlen', ?_⟩
  intro row hrow
  obtain ⟨r, hr, rfl⟩ := List.mem_iff_getElem.mp hrow
  rw [← List.getD_eq_getElem _ [] hr]
  rw [applyCandidate_col_rows (by omega) (by omega)]
  have hwf_r : WfLine w (g.getD r []) := wfGrid_row hg r (by omega)
  refine wfLine_of_getD (by rw [List.length_set]; exact hwf_r.1) ?_
  intro j hj
  by_cases hjc : j = c
  · subst hjc
    rcases Nat.lt_or_ge j (g.getD r []).length with hlt | hge
    · rw [getD_set_self hlt]
      have hmem : cand.getD r UNKNOWN ∈ cand := by
        rw [List.getD_eq_getElem cand UNKNOWN (by omega)]
        exact List.getElem_mem _
      rcases hcells _ hmem with he | hf
      · exact Or.inr (Or.inl he)
      · exact Or.inr (Or.inr hf)
    · rw [List.set_eq_of_length_le (by omega)]
      exact wfLine_getD hwf_r j
  · rw [getD_set_ne (fun he => hjc he.symm)]
    exact wfLine_getD hwf_r j

theorem applyCandidate_col_count {w h : Nat} {g : Grid} {c : Nat} {cand : Line}
    (hg : WfGrid w h g) (hc : c < w) (hlen : cand.length = h)
    (hcells : ∀ v ∈ cand, v = EMPTY ∨ v = FILLED)
    (hunk : UNKNOWN ∈ colLineState c g) :
    countUnknown (applyCandidate "col" c cand g) < countUnknown g := by
  have hglen : g.length = h := hg.1
  have hlen' : (applyCandidate "col" c cand g).length = g.length := by
    unfold applyCandidate
    rw [if_neg (by simp), List.length_zipWith, hglen, hlen]
    simp [hglen]
  have hrowD : ∀ r, r < g.length → (applyCandidate "col" c cand g).getD r [] =
      (g.getD r []).set c (cand.getD r UNKNOWN) := by
    intro r hr
    exact applyCandidate_col_rows hr (by omega)
  have hcellne : ∀ r, r < g.length → cand.getD r UNKNOWN ≠ UNKNOWN := by
    intro r hr
    have hmem : cand.getD r UNKNOWN ∈ cand := by
      rw [List.getD_eq_getElem cand UNKNOWN (by omega)]
      exact List.getElem_mem _
    rcases hcells _ hmem with he | hf
    · rw [he]; decide
    · rw [hf]; decide
  have hrowle : ∀ r, r < g.length →
      ((applyCandidate "col" c cand g).getD r []).count UNKNOWN ≤
        (g.getD r []).count UNKNOWN := by
    intro r hr
    rw [hrowD r hr]
    apply count_unknown_le (by rw [List.length_set])
    intro j hj hU
    by_cases hjc : j = c
    · rw [hjc, getD_set_self (by
        have := (wfGrid_row hg r hr).1
        omega)] at hU
      exact absurd hU (hcellne r hr)
    · rwa [getD_set_ne (fun he => hjc he.symm)] at hU
  obtain ⟨row, hrowmem, hrowU⟩ := List.mem_map.mp (by
    unfold colLineState at hunk
    exact hunk)
  obtain ⟨r, hr, rfl⟩ := List.mem_iff_getElem.mp hrowmem
  apply countUnknown_lt_grid hlen' hrowle
  refine ⟨r, hr, ?_⟩
  rw [hrowD r hr]
  have hwf_r : WfLine w (g.getD r []) := wfGrid_row hg r hr
  apply count_unknown_lt (by rw [List.length_set])
  · intro j hj hU
    by_cases hjc : j = c
    · rw [hjc, getD_set_self (by omega)] at hU
      exact absurd hU (hcellne r hr)
    · rwa [getD_set_ne (fun he => hjc he.symm)] at hU
  · refine ⟨c, by omega, ?_, ?_⟩
    · rw [← List.getD_eq_getElem g [] hr] at hrowU
      exact hrowU
    · rw [getD_set_self (by omega)]
      exact hcellne r hr

/-! ## Search termination -/

theorem dfsOverCands_ne_fuelOut {maxSolutions : Nat} {child : Grid → List Grid → SearchOut}
    {branchGrid : Line → Grid} :
    ∀ (cands : List Line) (sols : List Grid),
      (∀ cand ∈ cands, ∀ sols', child (branchGrid cand) sols' ≠ .fuelOut) →
      dfsOverCands maxSolutions child branchGrid cands sols ≠ .fuelOut := by
  intro cands
  induction cands with
  | nil => intro sols _; simp [dfsOverCands]
  | cons cand more ih =>
      intro sols hchild
      simp only [dfsOverCands]
      split
      · simp
      · cases hc : child (branchGrid cand) sols with
        | found sols' => exact ih sols' (fun c hm => hchild c (by simp [hm]))
        | cancelled => simp
        | fuelOut => exact absurd hc (hchild cand (by simp) sols)

theorem branch_child_spec {w h : Nat} {rowClues colClues : List (List Nat)} {g' : Grid}
    {t : String} {i : Int} {cands : List Line} (hwf' : WfGrid w h g')
    (hb : bestBranchLine g' rowClues colClues = (t, i, cands)) (hcn : cands ≠ [])
    {cand : Line} (hcand : cand ∈ cands) :
    WfGrid w h (applyCandidate t i.toNat cand g') ∧
    countUnknown (applyCandidate t i.toNat cand g') < countUnknown g' := by
  obtain ⟨p, hp, ht, hi, hcands, hu, -⟩ := bestBranchLine_choice hb hcn
  have hlen' : g'.length = h := hwf'.1
  rcases mem_scanOrder.mp hp with ⟨hrow, hridx⟩ | ⟨hcol, hcidx⟩
  · -- a row branch
    have hposh : 0 < h := by omega
    have hwidth : (g'.headD []).length = w := wfGrid_width hwf' hposh
    have hls : lineStateAt g' p = g'.getD p.2 [] := by
      unfold lineStateAt
      rw [if_pos hrow]
    have hcmem : cand ∈ lineCandidates ((g'.headD []).length)
        (clueAt rowClues colClues p) (lineStateAt g' p) := by
      rw [hcands] at hcand
      unfold candsAt at hcand
      rwa [show lineLenAt (g'.headD []).length g'.length p = (g'.headD []).length by
        unfold lineLenAt; rw [if_pos hrow]] at hcand
    have hcells := mem_lineCandidates_cells hcmem
    have hclen : cand.length = (g'.headD []).length := mem_lineCandidates_length hcmem
    have htoNat : i.toNat = p.2 := by rw [hi]; simp
    have happ : applyCandidate t i.toNat cand g' = g'.set p.2 cand := by
      unfold applyCandidate
      rw [ht, htoNat, if_pos hrow]
    rw [happ]
    constructor
    · exact wfGrid_set_row hwf' (by rw [hclen, hwidth]) hcells
    · apply countUnknown_set_lt g' p.2 cand (by omega)
      · exact count_unknown_zero_of_cells hcells
      · apply count_unknown_pos_of_mem
        rw [← hls]
        exact hu
  · -- a column branch
    have hls : lineStateAt g' p = colLineState p.2 g' := by
      unfold lineStateAt colLineState
      rw [if_neg (by rw [hcol]; decide)]
    have hposh : 0 < h := by
      rw [hls] at hu
      obtain ⟨row, hrowmem, -⟩ := List.mem_map.mp hu
      have := List.length_pos.mpr (List.ne_nil_of_mem hrowmem)
      omega
    have hwidth : (g'.headD []).length = w := wfGrid_width hwf' hposh
    have hcmem : cand ∈ lineCandidates g'.length
        (clueAt rowClues colClues p) (lineStateAt g' p) := by
      rw [hcands] at hcand
      unfold candsAt at hcand
      rwa [show lineLenAt (g'.headD []).length g'.length p = g'.length by
        unfold lineLenAt; rw [if_neg (by rw [hcol]; decide)]] at hcand
    have hcells := mem_lineCandidates_cells hcmem
    have hclen : cand.length = h := by
      rw [mem_lineCandidates_length hcmem, hlen']
    have htoNat : i.toNat = p.2 := by rw [hi]; simp
    have happ : applyCandidate t i.toNat cand g' =
        applyCandidate "col" p.2 cand g' := by
      rw [ht, htoNat, hcol]
    rw [happ]
    constructor
    · exact applyCandidate_col_wf hwf' hclen hcells
    · apply applyCandidate_col_count hwf' (by omega) hclen hcells
      rw [← hls]
      exact hu

theorem dfsAux_ne_fuelOut {cancel : Bool} {rowClues colClues : List (List Nat)}
    {maxSolutions : Nat} {w h : Nat} :
    ∀ (fuel : Nat) (g : Grid) (sols : List Grid), WfGrid w h g → countUnknown g < fuel →
      dfsAux cancel rowClues colClues maxSolutions fuel g sols ≠ .fuelOut := by
  intro fuel
  induction fuel with
  | zero => intro g sols _ hlt; exact absurd hlt (by omega)
  | succ fuel ih =>
      intro g sols hg hlt
      simp only [dfsAux]
      by_cases hcancel : cancel
      · simp [hcancel]
      rw [if_neg hcancel]
      cases hprop : propagate cancel g rowClues colClues with
      | cancelled => simp
      | fuelOut => exact absurd hprop (propagate_ne_fuelOut hg)
      | done ok g' n =>
          cases ok with
          | false => simp
          | true =>
              simp only
              have hspec := propagate_done_spec hg hprop
              by_cases hsolved : isSolved g' = true
              · rw [if_pos hsolved]
                simp
              · rw [if_neg hsolved]
                rcases hb : bestBranchLine g' rowClues colClues with ⟨t, rest⟩
                rcases rest with ⟨i, cands⟩
                simp only
                by_cases hcn : cands = []
                · rw [if_pos hcn]
                  simp
                · rw [if_neg hcn]
                  apply dfsOverCands_ne_fuelOut
                  intro cand hcand sols'
                  have hchild := branch_child_spec hspec.1 hb hcn hcand
                  apply ih _ sols' hchild.1
                  have h1 := hchild.2
                  have h2 := hspec.2.2
                  omega

/-! ## Solution cap -/

theorem dfsOverCands_cap {maxSolutions : Nat} {child : Grid → List Grid → SearchOut}
    {branchGrid : Line → Grid}
    (hchild : ∀ g2 sols2 out, sols2.length < maxSolutions →
      child g2 sols2 = .found out → out.length ≤ maxSolutions) :
    ∀ (cands : List Line) (sols : List Grid) (out : List Grid),
      sols.length ≤ maxSolutions →
      dfsOverCands maxSolutions child branchGrid cands sols = .found out →
      out.length ≤ maxSolutions := by
  intro cands
  induction cands with
  | nil =>
      intro sols out hle hrun
      simp only [dfsOverCands, SearchOut.found.injEq] at hrun
      rw [← hrun]
      exact hle
  | cons cand more ih =>
      intro sols out hle hrun
      simp only [dfsOverCands] at hrun
      split at hrun
      · simp only [SearchOut.found.injEq] at hrun
        rw [← hrun]
        exact hle
      case isFalse hlt =>
        cases hc : child (branchGrid cand) sols with
        | found sols' =>
            rw [hc] at hrun
            exact ih sols' out (hchild _ _ _ (by omega) hc) hrun
        | cancelled => rw [hc] at hrun; simp at hrun
        | fuelOut => rw [hc] at hrun; simp at hrun

theorem dfsAux_cap {cancel : Bool} {rowClues colClues : List (List Nat)}
    {maxSolutions : Nat} :
    ∀ (fuel : Nat) (g : Grid) (sols out : List Grid),
      sols.length < maxSolutions →
      dfsAux cancel rowClues colClues maxSolutions fuel g sols = .found out →
      out.length ≤ maxSolutions := by
  intro fuel
  induction fuel with
  | zero => intro g sols out _ hrun; simp [dfsAux] at hrun
  | succ fuel ih =>
      intro g sols out hlt hrun
      simp only [dfsAux] at hrun
      by_cases hcancel : cancel
      · rw [if_pos hcancel] at hrun
        simp at hrun
      rw [if_neg hcancel] at hrun
      cases hprop : propagate cancel g rowClues colClues with
      | cancelled => rw [hprop] at hrun; simp at hrun
      | fuelOut => rw [hprop] at hrun; simp at hrun
      | done ok g' n =>
          rw [hprop] at hrun
          cases ok with
          | false =>
              simp only [SearchOut.found.injEq] at hrun
              rw [← hrun]
              omega
          | true =>
              simp only at hrun
              by_cases hsolved : isSolved g' = true
              · rw [if_pos hsolved] at hrun
                simp only [SearchOut.found.injEq] at hrun
                rw [← hrun]
                simp only [List.length_append, List.length_singleton]
                omega
              · rw [if_neg hsolved] at hrun
                rcases hb : bestBranchLine g' rowClues colClues with ⟨t, rest⟩
                rcases rest with ⟨i, cands⟩
                rw [hb] at hrun
                simp only at hrun
                by_cases hcn : cands = []
                · rw [if_pos hcn] at hrun
                  simp only [SearchOut.found.injEq] at hrun
                  rw [← hrun]
                  omega
                · rw [if_neg hcn] at hrun
                  exact dfsOverCands_cap (fun g2 sols2 out2 hlt2 hc =>
                    ih g2 sols2 out2 hlt2 hc) cands sols out (by omega) hrun

/-! ## Grid size bound -/

theorem countUnknown_le_total {w h : Nat} {g : Grid} (hg : WfGrid w h g) :
    countUnknown g ≤ h * w := by
  have hmain : ∀ (g2 : Grid), (∀ row ∈ g2, row.length = w) →
      countUnknown g2 ≤ g2.length * w := by
    intro g2
    induction g2 with
    | nil => intro _; simp [countUnknown]
    | cons row rest ih =>
        intro hrows
        have h1 : row.count UNKNOWN ≤ w := by
          have := List.count_le_length UNKNOWN row
          rw [hrows row (by simp)] at this
          exact this
        have h2 := ih (fun r hr => hrows r (by simp [hr]))
        simp only [countUnknown_cons, List.length_cons]
        calc row.count UNKNOWN + countUnknown rest ≤ w + rest.length * w := by omega
        _ = (rest.length + 1) * w := by ring
  have := hmain g (fun row hr => (hg.2 row hr).1)
  rw [hg.1] at this
  exact this

/-! ## Store frame lemmas -/

theorem writeGrid_length : ∀ (ref : GridRef) (g : Grid) (σ : RowStore),
    (writeGrid σ ref g).length = σ.length := by
  intro ref
  induction ref with
  | nil => intro g σ; cases g <;> rfl
  | cons i ref' ih =>
      intro g σ
      cases g with
      | nil => rfl
      | cons row rows =>
          simp only [writeGrid, ih, List.length_set]

theorem writeGrid_frame : ∀ (ref : GridRef) (g : Grid) (σ : RowStore) (n : Nat),
    (∀ i ∈ ref, n ≤ i) → ∀ j, j < n → (writeGrid σ ref g).getD j [] = σ.getD j [] := by
  intro ref
  induction ref with
  | nil => intro g σ n _ j _; cases g <;> rfl
  | cons i ref' ih =>
      intro g σ n href j hj
      cases g with
      | nil => rfl
      | cons row rows =>
          simp only [writeGrid]
          rw [ih rows (σ.set i row) n (fun i' hi' => href i' (by simp [hi'])) j hj]
          exact getD_set_ne (by have := href i (by simp); omega)

theorem allocGrid_refs {σ : RowStore} {g : Grid} :
    ∀ i ∈ (allocGrid σ g).2, σ.length ≤ i := by
  intro i hi
  unfold allocGrid at hi
  obtain ⟨r, -, rfl⟩ := List.mem_map.mp hi
  omega

theorem allocGrid_length (σ : RowStore) (g : Grid) :
    σ.length ≤ (allocGrid σ g).1.length := by
  unfold allocGrid
  simp

theorem allocGrid_frame {σ : RowStore} {g : Grid} {j : Nat} (hj : j < σ.length) :
    (allocGrid σ g).1.getD j [] = σ.getD j [] := by
  unfold allocGrid
  exact getD_append_left [] hj

theorem propagateStore_frame (cancel : Bool) (σ : RowStore) (ref : GridRef)
    (rowClues colClues : List (List Nat)) (n : Nat)
    (href : ∀ i ∈ ref, n ≤ i) :
    (∀ j, j < n →
      ((propagateStore cancel σ ref rowClues colClues).1).getD j [] = σ.getD j []) ∧
    (propagateStore cancel σ ref rowClues colClues).1.length = σ.length := by
  unfold propagateStore
  cases propagate cancel (derefGrid σ ref) rowClues colClues with
  | cancelled => exact ⟨fun j _ => rfl, rfl⟩
  | fuelOut => exact ⟨fun j _ => rfl, rfl⟩
  | done ok g' m =>
      simp only
      exact ⟨fun j hj => writeGrid_frame ref g' σ n href j hj, writeGrid_length ref g' σ⟩

theorem dfsStoreCands_frame (maxSolutions : Nat)
    (child : RowStore → GridRef → List Grid → RowStore × SearchOut)
    (branchGrid : Line → Grid) (n : Nat)
    (hchild : ∀ σ2 ref2 sols2, (∀ i ∈ ref2, n ≤ i) → n ≤ σ2.length →
      (∀ j, j < n → ((child σ2 ref2 sols2).1).getD j [] = σ2.getD j []) ∧
      n ≤ (child σ2 ref2 sols2).1.length) :
    ∀ (cands : List Line) (σ : RowStore) (sols : List Grid), n ≤ σ.length →
      (∀ j, j < n →
        ((dfsStoreCands maxSolutions child branchGrid cands σ sols).1).getD j [] =
          σ.getD j []) ∧
      n ≤ (dfsStoreCands maxSolutions child branchGrid cands σ sols).1.length := by
  intro cands
  induction cands with
  | nil => intro σ sols hn; exact ⟨fun j _ => rfl, hn⟩
  | cons cand more ih =>
      intro σ sols hn
      simp only [dfsStoreCands]
      split
      · exact ⟨fun j _ => rfl, hn⟩
      · have hrefs : ∀ i ∈ (allocGrid σ (branchGrid cand)).2, n ≤ i := by
          intro i hi
          have := allocGrid_refs i hi
          omega
        have hlen : n ≤ (allocGrid σ (branchGrid cand)).1.length := by
          have := allocGrid_length σ (branchGrid cand)
          omega
        have hch := hchild (allocGrid σ (branchGrid cand)).1
          (allocGrid σ (branchGrid cand)).2 sols hrefs hlen
        cases hc : child (allocGrid σ (branchGrid cand)).1
            (allocGrid σ (branchGrid cand)).2 sols with
        | mk σ2 out =>
            rw [hc] at hch
            cases out with
            | found sols' =>
                simp only
                have hrec := ih σ2 sols' hch.2
                refine ⟨?_, hrec.2⟩
                intro j hj
                rw [hrec.1 j hj, hch.1 j hj]
                exact allocGrid_frame (by omega)
            | cancelled =>
                simp only
                refine ⟨?_, hch.2⟩
                intro j hj
                rw [hch.1 j hj]
                exact allocGrid_frame (by omega)
            | fuelOut =>
                simp only
                refine ⟨?_, hch.2⟩
                intro j hj
                rw [hch.1 j hj]
                exact allocGrid_frame (by omega)

theorem dfsStore_frame (cancel : Bool) (rowClues colClues : List (List Nat))
    (maxSolutions : Nat) (n : Nat) :
    ∀ (fuel : Nat) (σ : RowStore) (ref : GridRef) (sols : List Grid),
      (∀ i ∈ ref, n ≤ i) → n ≤ σ.length →
      (∀ j, j < n →
        ((dfsStore cancel rowClues colClues maxSolutions fuel σ ref sols).1).getD j [] =
          σ.getD j []) ∧
      n ≤ (dfsStore cancel rowClues colClues maxSolutions fuel σ ref sols).1.length := by
  intro fuel
  induction fuel with
  | zero => intro σ ref sols _ hn; exact ⟨fun j _ => rfl, hn⟩
  | succ fuel ih =>
      intro σ ref sols href hn
      simp only [dfsStore]
      by_cases hcancel : cancel
      · rw [if_pos hcancel]
        exact ⟨fun j _ => rfl, hn⟩
      rw [if_neg hcancel]
      have hps := propagateStore_frame cancel σ ref rowClues colClues n href
      rcases hprop : propagateStore cancel σ ref rowClues colClues with ⟨σ1, out⟩
      rw [hprop] at hps
      simp only at hps
      have hσ1 : ∀ j, j < n → σ1.getD j [] = σ.getD j [] := hps.1
      have hσ1len : n ≤ σ1.length := by omega
      cases out with
      | cancelled => exact ⟨hσ1, hσ1len⟩
      | fuelOut => exact ⟨hσ1, hσ1len⟩
      | done ok g' m =>
          cases ok with
          | false => exact ⟨hσ1, hσ1len⟩
          | true =>
              simp only
              by_cases hsolved : isSolved g' = true
              · rw [if_pos hsolved]
                exact ⟨hσ1, hσ1len⟩
              · rw [if_neg hsolved]
                by_cases hcn : (bestBranchLine g' rowClues colClues).2.2 = []
                · rw [if_pos hcn]
                  exact ⟨hσ1, hσ1len⟩
                · rw [if_neg hcn]
                  have hrec := dfsStoreCands_frame maxSolutions
                    (fun σ2 ref2 sols2 =>
                      dfsStore cancel rowClues colClues maxSolutions fuel σ2 ref2 sols2)
                    (fun cand => applyCandidate (bestBranchLine g' rowClues colClues).1
                      (bestBranchLine g' rowClues colClues).2.1.toNat cand g') n
                    (fun σ2 ref2 sols2 h1 h2 => ih σ2 ref2 sols2 h1 h2)
                    (bestBranchLine g' rowClues colClues).2.2 σ1 sols hσ1len
                  refine ⟨?_, hrec.2⟩
                  intro j hj
                  rw [hrec.1 j hj]
                  exact hσ1 j hj

theorem solveStore_frame (cancel : Bool) (maxSolutions : Nat) (σ : RowStore)
    (ref : GridRef) (rowClues colClues : List (List Nat)) :
    ∀ j, j < σ.length →
      ((solveStore cancel maxSolutions σ ref rowClues colClues).1).getD j [] =
        σ.getD j [] := by
  intro j hj
  have hrefs : ∀ i ∈ (allocGrid σ (derefGrid σ ref)).2, σ.length ≤ i := allocGrid_refs
  have hlen : σ.length ≤ (allocGrid σ (derefGrid σ ref)).1.length :=
    allocGrid_length σ (derefGrid σ ref)
  rcases hrun : dfsStore cancel rowClues colClues maxSolutions
      ((derefGrid σ ref).length * ((derefGrid σ ref).headD []).length + 1)
      (allocGrid σ (derefGrid σ ref)).1 (allocGrid σ (derefGrid σ ref)).2 []
    with ⟨σ', out⟩
  have hdfs := dfsStore_frame cancel rowClues colClues maxSolutions σ.length
      ((derefGrid σ ref).length * ((derefGrid σ ref).headD []).length + 1)
      (allocGrid σ (derefGrid σ ref)).1 (allocGrid σ (derefGrid σ ref)).2 [] hrefs hlen
  rw [hrun] at hdfs
  have hagree : σ'.getD j [] = σ.getD j [] := by
    rw [hdfs.1 j hj]
    exact allocGrid_frame hj
  unfold solveStore
  simp only
  rw [hrun]
  cases out with
  | fuelOut => exact hagree
  | cancelled => exact hagree
  | found sols =>
      simp only
      split
      · exact hagree
      · split
        · exact hagree
        · exact hagree

/-! ## Filled runs -/

theorem runsAux_empty_cons (t : Line) : runsAux (EMPTY :: t) 0 = runsAux t 0 := by
  simp only [runsAux]
  rw [if_neg (by decide)]
  simp

theorem runsAux_replicate_empty : ∀ (k : Nat) (t : Line),
    runsAux (List.replicate k EMPTY ++ t) 0 = runsAux t 0 := by
  intro k
  induction k with
  | zero => intro t; rfl
  | succ k ih =>
      intro t
      rw [List.replicate_succ, List.cons_append, runsAux_empty_cons, ih]

theorem runsAux_replicate_filled : ∀ (b : Nat) (t : Line) (cur : Nat),
    runsAux (List.replicate b FILLED ++ t) cur = runsAux t (cur + b) := by
  intro b
  induction b with
  | zero => intro t cur; rfl
  | succ b ih =>
      intro t cur
      rw [List.replicate_succ, List.cons_append]
      show runsAux (FILLED :: (List.replicate b FILLED ++ t)) cur = runsAux t (cur + (b + 1))
      rw [show runsAux (FILLED :: (List.replicate b FILLED ++ t)) cur =
          runsAux (List.replicate b FILLED ++ t) (cur + 1) by simp [runsAux]]
      rw [ih t (cur + 1)]
      congr 1
      omega

theorem runsAux_flush {t : Line} {m : Nat} (hhead : t.headD EMPTY ≠ FILLED) (hm : m ≠ 0) :
    runsAux t m = m :: runsAux t 0 := by
  cases t with
  | nil => simp [runsAux, hm]
  | cons v rest =>
      simp only [List.headD_cons] at hhead
      simp [runsAux, hhead, hm]

theorem headD_replicate_empty (k : Nat) :
    (List.replicate k EMPTY).headD EMPTY = EMPTY := by
  cases k <;> rfl

theorem runsAux_replicate_empty_nil (k : Nat) :
    runsAux (List.replicate k EMPTY) 0 = [] := by
  rw [← List.append_nil (List.replicate k EMPTY), runsAux_replicate_empty]
  rfl

theorem place_runs {ls : Line} {L : Nat} :
    ∀ (blocks : List Nat) (pos : Nat) (cand : Line),
      (∀ b ∈ blocks, 0 < b) → cand ∈ place ls L blocks pos →
      filledRuns cand = blocks := by
  intro blocks
  induction blocks with
  | nil =>
      intro pos cand _ h
      obtain ⟨-, rfl⟩ := mem_place_nil.mp h
      exact runsAux_replicate_empty_nil _
  | cons b rest ih =>
      intro pos cand hpos h
      have hb : 0 < b := hpos b (by simp)
      cases rest with
      | nil =>
          obtain ⟨start, -, -, -, -, rfl⟩ := mem_place_one.mp h
          unfold filledRuns
          rw [List.append_assoc]
          rw [runsAux_replicate_empty, runsAux_replicate_filled]
          rw [runsAux_flush (by rw [headD_replicate_empty]; decide) (by omega)]
          rw [runsAux_replicate_empty_nil]
          simp
      | cons r1 rs =>
          obtain ⟨start, -, -, -, -, -, suf, hsuf, rfl⟩ := mem_place_cons2.mp h
          unfold filledRuns
          rw [List.append_assoc]
          rw [runsAux_replicate_empty, runsAux_replicate_filled]
          have hflush := runsAux_flush
            (show (EMPTY :: suf).headD EMPTY ≠ FILLED by rw [List.headD_cons]; decide)
            (show b ≠ 0 by omega)
          rw [Nat.zero_add, hflush]
          rw [runsAux_empty_cons]
          have := ih (start + b + 1) suf (fun x hx => hpos x (by simp [hx])) hsuf
          unfold filledRuns at this
          rw [this]

theorem lineCandidates_runs {L : Nat} {blocks : List Nat} {ls cand : Line}
    (hpos : ∀ b ∈ blocks, 0 < b) (h : cand ∈ lineCandidates L blocks ls) :
    filledRuns cand = blocks := by
  cases blocks with
  | nil =>
      simp only [lineCandidates] at h
      obtain ⟨-, h⟩ := mem_ite_nil_left.mp h
      simp only [List.mem_singleton] at h
      subst h
      exact runsAux_replicate_empty_nil _
  | cons b rest =>
      simp only [lineCandidates] at h
      exact place_runs (b :: rest) 0 cand hpos h

/-! ## Overfull clues reach the solver -/

theorem loadPuzzle_ok {width height : Nat} {rowClues colClues : List (List Nat)}
    (hw : width ≠ 0) (hh : height ≠ 0)
    (hrc : rowClues.length = height) (hcc : colClues.length = width)
    (hrcpos : ∀ line ∈ rowClues, ∀ n ∈ line, 0 < n)
    (hccpos : ∀ line ∈ colClues, ∀ n ∈ line, 0 < n) :
    loadPuzzle width height rowClues colClues [] =
      .ok ⟨width, height, rowClues, colClues,
        List.replicate height (List.replicate width UNKNOWN)⟩ := by
  have hrcne : rowClues ≠ [] := by
    intro he
    rw [he] at hrc
    simp at hrc
    omega
  have hccne : colClues ≠ [] := by
    intro he
    rw [he] at hcc
    simp at hcc
    omega
  unfold loadPuzzle normalizeClues
  rw [if_pos hrcpos, if_pos hccpos]
  unfold mkPuzzle
  simp only []
  rw [if_neg (show ¬(width = 0 ∨ height = 0) by push_neg; exact ⟨hw, hh⟩)]
  rw [if_neg hrcne, if_neg hccne]
  simp only [if_true]
  rw [if_neg (not_not_intro hrc)]
  rw [if_neg (not_not_intro hcc)]
  rw [if_neg (not_not_intro (List.length_replicate height (List.replicate width UNKNOWN)))]
  rw [if_neg (not_not_intro (by
    intro row hrow
    rw [List.eq_of_mem_replicate hrow]
    exact List.length_replicate width UNKNOWN))]
  rw [if_neg (not_not_intro (by
    intro row hrow v hv
    rw [List.eq_of_mem_replicate hrow] at hv
    exact Or.inl (List.eq_of_mem_replicate hv)))]

theorem propagate_overfull_first_row {row : Line} {rest : List Line}
    {rowClues colClues : List (List Nat)} {b : Nat} {brest : List Nat}
    (hclue : rowClues.headD [] = b :: brest)
    (hover : row.length + 1 ≤ b + brest.sum + brest.length) :
    propagate false (row :: rest) rowClues colClues = .done false (row :: rest) 1 := by
  have hcand : lineCandidates ((row :: rest).headD []).length (rowClues.headD []) row
      = [] := by
    rw [hclue]
    exact lineCandidates_overfull (by simpa using hover)
  have hredeq : reduceLine ((row :: rest).headD []).length (rowClues.headD []) row
      = none := by
    unfold reduceLine
    rw [if_pos hcand]
  have hrows : rowsPass ((row :: rest).headD []).length rowClues (row :: rest) =
      (false, row :: rest, 0) := by
    simp only [rowsPass]
    rw [hredeq]
  have hfull : fullPass ((row :: rest).headD []).length (row :: rest).length
      rowClues colClues (row :: rest) = (false, row :: rest, 0) := by
    unfold fullPass
    rw [hrows]
    rfl
  unfold propagate
  simp only [propagateAux]
  rw [if_neg (by simp)]
  rw [hfull]
  rfl

/-! ## Claim theorems -/

/-- C1: for every line length L, every block sequence (clue values are positive
integers in the data model), and every line_state of length L, every candidate
filling returned by the line candidate generator, when split into its maximal
runs of Filled cells, yields exactly the block sequence, in order. -/
theorem claim_C1 (L : Nat) (blocks : List Nat) (ls cand : Line)
    (hpos : ∀ b ∈ blocks, 0 < b) (hlen : ls.length = L)
    (hmem : cand ∈ lineCandidates L blocks ls) :
    filledRuns cand = blocks :=
  lineCandidates_runs hpos hmem

theorem claim_C1_witness :
    ((∀ b ∈ [2, 1], 0 < b) ∧ ([-1, -1, -1, -1, -1] : Line).length = 5 ∧
      [1, 1, 0, 1, 0] ∈ lineCandidates 5 [2, 1] [-1, -1, -1, -1, -1]) ∧
    filledRuns [1, 1, 0, 1, 0] = [2, 1] :=
  ⟨⟨by decide, by decide, by decide⟩,
    claim_C1 5 [2, 1] [-1, -1, -1, -1, -1] [1, 1, 0, 1, 0]
      (by decide) (by decide) (by decide)⟩

/-- C2: for every input triple, every candidate filling returned by the
generator is pointwise consistent with line_state (Filled cells stay Filled,
Empty cells stay Empty); in particular, when blocks is empty the result is the
single all-Empty line of the given length if no cell of line_state is Filled,
and the empty set otherwise. -/
theorem claim_C2 (L : Nat) (blocks : List Nat) (ls : Line) (hlen : ls.length = L) :
    (∀ cand ∈ lineCandidates L blocks ls, ConsistentWith ls cand) ∧
    (blocks = [] →
      lineCandidates L blocks ls =
        if FILLED ∈ ls then [] else [List.replicate L EMPTY]) := by
  constructor
  · intro cand hcand i
    rcases Nat.lt_or_ge i L with hi | hi
    · exact mem_lineCandidates_consistent hcand i hi
    · constructor
      · intro hF
        rw [List.getD_eq_default ls UNKNOWN (by omega)] at hF
        exact absurd hF (by decide)
      · intro hE
        rw [List.getD_eq_default ls UNKNOWN (by omega)] at hE
        exact absurd hE (by decide)
  · intro hb
    subst hb
    rfl

theorem claim_C2_witness :
    (([-1, 0, -1, 1] : Line).length = 4) ∧
    ((∀ cand ∈ lineCandidates 4 [2] [-1, 0, -1, 1], ConsistentWith [-1, 0, -1, 1] cand) ∧
      ([2] = ([] : List Nat) →
        lineCandidates 4 [2] [-1, 0, -1, 1] =
          if FILLED ∈ ([-1, 0, -1, 1] : Line) then [] else [List.replicate 4 EMPTY])) :=
  ⟨by decide, claim_C2 4 [2] [-1, 0, -1, 1] (by decide)⟩

/-- C3: a single propagation pass of the run-to-fixpoint engine, on a
well-formed grid with clue lists matching its dimensions, keeps every
determined cell determined with the same value: the set of non-Unknown cells
never shrinks and no determined cell is overwritten. -/
theorem claim_C3 (w h : Nat) (rowClues colClues : List (List Nat)) (g : Grid)
    (ok : Bool) (g' : Grid) (k : Nat) (hg : WfGrid w h g)
    (hrc : rowClues.length = h) (hcc : colClues.length = w)
    (hp : fullPass w h rowClues colClues g = (ok, g', k)) :
    PreservesFixed g g' :=
  (fullPass_spec hg hp).2.1

theorem claim_C3_witness :
    (WfGrid 2 2 [[-1, -1], [-1, -1]] ∧ ([[2], [1]] : List (List Nat)).length = 2 ∧
      ([[1], [1]] : List (List Nat)).length = 2 ∧
      fullPass 2 2 [[2], [1]] [[1], [1]] [[-1, -1], [-1, -1]] =
        (true, [[1, 1], [0, 0]], 4)) ∧
    PreservesFixed [[-1, -1], [-1, -1]] [[1, 1], [0, 0]] :=
  ⟨⟨by decide, by decide, by decide, by decide⟩,
    claim_C3 2 2 [[2], [1]] [[1], [1]] [[-1, -1], [-1, -1]] true [[1, 1], [0, 0]] 4
      (by decide) (by decide) (by decide) (by decide)⟩

/-- C4: running the run-to-fixpoint propagation twice in succession on the same
grid and clues is idempotent: whenever the first call succeeds, the second call
succeeds as well and changes no cell, finishing after a single unchanged
pass. -/
theorem claim_C4 (cancel : Bool) (w h : Nat) (g g' : Grid)
    (rowClues colClues : List (List Nat)) (n : Nat)
    (hg : WfGrid w h g) (hpos : 0 < h)
    (hrun : propagate cancel g rowClues colClues = .done true g' n) :
    propagate cancel g' rowClues colClues = .done true g' 1 :=
  propagate_fixpoint hg hpos hrun

theorem claim_C4_witness :
    (WfGrid 1 1 [[-1]] ∧ 0 < 1 ∧
      propagate false [[-1]] [[1]] [[1]] = .done true [[1]] 2) ∧
    propagate false [[1]] [[1]] [[1]] = .done true [[1]] 1 :=
  ⟨⟨by decide, by decide, by decide⟩,
    claim_C4 false 1 1 [[-1]] [[1]] [[1]] [[1]] 2 (by decide) (by decide) (by decide)⟩

/-- C5 counterexample: the 5 x 1 puzzle whose single row clue [6] needs six
cells in a width-5 line is accepted by Puzzle loading/construction (it returns
a Puzzle, not an invalid-input error), and the overfull clue reaches the
solving engine, which reports it as a propagation failure on the first pass. -/
theorem claim_C5_counterexample :
    (5 + 1 ≤ 6 + List.sum ([] : List Nat) + List.length ([] : List Nat)) ∧
    loadPuzzle 5 1 [[6]] [[], [], [], [], []] [] =
      .ok ⟨5, 1, [[6]], [[], [], [], [], []], [[-1, -1, -1, -1, -1]]⟩ ∧
    propagate false [[-1, -1, -1, -1, -1]] [[6]] [[], [], [], [], []] =
      .done false [[-1, -1, -1, -1, -1]] 1 :=
  ⟨by decide, by decide, by decide⟩

/-- C5 amended: Puzzle construction/loading validates dimensions, clue-list
lengths, cell-value ranges and (on load) clue positivity, but does not check
whether a clue fits its line; a puzzle whose first row clue's total block
length plus mandatory separators exceeds the width is accepted by loading and
reaches the solving engine, where the overfull line yields an empty candidate
set and run-to-fixpoint propagation reports failure on its first pass, leaving
the grid unchanged -- a solver contradiction rather than an input error. -/
theorem claim_C5_amended (width height : Nat) (rowClues colClues : List (List Nat))
    (b : Nat) (brest : List Nat)
    (hw : width ≠ 0) (hh : height ≠ 0)
    (hrc : rowClues.length = height) (hcc : colClues.length = width)
    (hrcpos : ∀ line ∈ rowClues, ∀ n ∈ line, 0 < n)
    (hccpos : ∀ line ∈ colClues, ∀ n ∈ line, 0 < n)
    (hclue : rowClues.headD [] = b :: brest)
    (hover : width + 1 ≤ b + brest.sum + brest.length) :
    loadPuzzle width height rowClues colClues [] =
      .ok ⟨width, height, rowClues, colClues,
        List.replicate height (List.replicate width UNKNOWN)⟩ ∧
    propagate false (List.replicate height (List.replicate width UNKNOWN))
        rowClues colClues =
      .done false (List.replicate height (List.replicate width UNKNOWN)) 1 := by
  refine ⟨loadPuzzle_ok hw hh hrc hcc hrcpos hccpos, ?_⟩
  obtain ⟨h', rfl⟩ : ∃ h', height = h' + 1 := ⟨height - 1, by omega⟩
  rw [List.replicate_succ]
  exact propagate_overfull_first_row hclue (by simpa using hover)

theorem claim_C5_amended_witness :
    ((5 : Nat) ≠ 0 ∧ (1 : Nat) ≠ 0 ∧ ([[6]] : List (List Nat)).length = 1 ∧
      ([[], [], [], [], []] : List (List Nat)).length = 5 ∧
      (∀ line ∈ ([[6]] : List (List Nat)), ∀ n ∈ line, 0 < n) ∧
      (∀ line ∈ ([[], [], [], [], []] : List (List Nat)), ∀ n ∈ line, 0 < n) ∧
      ([[6]] : List (List Nat)).headD [] = 6 :: [] ∧
      5 + 1 ≤ 6 + List.sum ([] : List Nat) + List.length ([] : List Nat)) ∧
    (loadPuzzle 5 1 [[6]] [[], [], [], [], []] [] =
      .ok ⟨5, 1, [[6]], [[], [], [], [], []],
        List.replicate 1 (List.replicate 5 UNKNOWN)⟩ ∧
    propagate false (List.replicate 1 (List.replicate 5 UNKNOWN)) [[6]]
        [[], [], [], [], []] =
      .done false (List.replicate 1 (List.replicate 5 UNKNOWN)) 1) :=
  ⟨⟨by decide, by decide, by decide, by decide, by decide, by decide, by decide, by decide⟩,
    claim_C5_amended 5 1 [[6]] [[], [], [], [], []] 6 []
      (by decide) (by decide) (by decide) (by decide) (by decide) (by decide)
      (by decide) (by decide)⟩

theorem getD_replicate_gen {α : Type} {n j : Nat} {a d : α} :
    (List.replicate n a).getD j d = if j < n then a else d := by
  simp only [List.getD_eq_getElem?_getD, List.getElem?_replicate]
  split <;> simp

/-- C6: the solve entry point classifies its result as exactly one of cancelled
(no grids), unsolved (no grids), solved (exactly one grid) or multiple (exactly
two grids returned even if more exist), and the search never accumulates more
than max_solutions solutions: before each candidate of a branch line the
recursion stops once the accumulated count has reached the cap. -/
theorem claim_C6 (cancel : Bool) (maxSolutions : Nat) (g : Grid)
    (rowClues colClues : List (List Nat)) (w h : Nat)
    (hg : WfGrid w h g) (hcap : 1 ≤ maxSolutions) :
    ∃ res, solveNonogram cancel maxSolutions g rowClues colClues = some res ∧
      ((res.status = "cancelled" ∧ res.solutions = []) ∨
       (res.status = "unsolved" ∧ res.solutions = []) ∨
       (res.status = "solved" ∧ res.solutions.length = 1) ∨
       (res.status = "multiple" ∧ res.solutions.length = 2)) ∧
      (∀ out, dfsAux cancel rowClues colClues maxSolutions
          (g.length * (g.headD []).length + 1) g [] = .found out →
        out.length ≤ maxSolutions) := by
  have hwf' := wfGrid_self_dims hg
  have hfuel : countUnknown g < g.length * (g.headD []).length + 1 := by
    have h1 := countUnknown_le_total hwf'
    omega
  have hnf := @dfsAux_ne_fuelOut cancel rowClues colClues maxSolutions
    (g.headD []).length g.length (g.length * (g.headD []).length + 1) g [] hwf' hfuel
  cases hdfs : dfsAux cancel rowClues colClues maxSolutions
      (g.length * (g.headD []).length + 1) g [] with
  | fuelOut => exact absurd hdfs hnf
  | cancelled =>
      have hsolve : solveNonogram cancel maxSolutions g rowClues colClues =
          some ⟨"cancelled", [], "Solve cancelled"⟩ := by
        unfold solveNonogram
        simp only []
        rw [hdfs]
      refine ⟨_, hsolve, Or.inl ⟨rfl, rfl⟩, ?_⟩
      intro out hout
      exact absurd hout (by simp)
  | found sols =>
      have hcap' : sols.length ≤ maxSolutions :=
        dfsAux_cap (g.length * (g.headD []).length + 1) g [] sols
          (by simp only [List.length_nil]; omega) hdfs
      have hout : ∀ out, SearchOut.found sols = .found out →
          out.length ≤ maxSolutions := by
        intro out ho
        rw [SearchOut.found.injEq] at ho
        rw [← ho]
        exact hcap'
      have hsolve : solveNonogram cancel maxSolutions g rowClues colClues =
          (if sols = [] then some ⟨"unsolved", [], "No solution"⟩
           else if 2 ≤ sols.length then
             some ⟨"multiple", sols.take 2, "Multiple solutions found"⟩
           else some ⟨"solved", sols, "Unique solution"⟩) := by
        unfold solveNonogram
        simp only []
        rw [hdfs]
      by_cases h0 : sols = []
      · exact ⟨_, by rw [hsolve, if_pos h0], Or.inr (Or.inl ⟨rfl, rfl⟩), hout⟩
      · by_cases h2 : 2 ≤ sols.length
        · refine ⟨⟨"multiple", sols.take 2, "Multiple solutions found"⟩,
            by rw [hsolve, if_neg h0, if_pos h2],
            Or.inr (Or.inr (Or.inr ⟨rfl, ?_⟩)), hout⟩
          show (sols.take 2).length = 2
          rw [List.length_take]
          exact Nat.min_eq_left h2
        · refine ⟨⟨"solved", sols, "Unique solution"⟩,
            by rw [hsolve, if_neg h0, if_neg h2],
            Or.inr (Or.inr (Or.inl ⟨rfl, ?_⟩)), hout⟩
          show sols.length = 1
          have hne : sols.length ≠ 0 := fun he => h0 (List.length_eq_zero.mp he)
          omega

theorem claim_C6_witness :
    (WfGrid 2 2 [[-1, -1], [-1, -1]] ∧ 1 ≤ 2) ∧
    (∃ res, solveNonogram false 2 [[-1, -1], [-1, -1]] [[2], [1]] [[1], [1]] =
        some res ∧
      ((res.status = "cancelled" ∧ res.solutions = []) ∨
       (res.status = "unsolved" ∧ res.solutions = []) ∨
       (res.status = "solved" ∧ res.solutions.length = 1) ∨
       (res.status = "multiple" ∧ res.solutions.length = 2)) ∧
      (∀ out, dfsAux false [[2], [1]] [[1], [1]] 2
          (([[-1, -1], [-1, -1]] : Grid).length *
            (([[-1, -1], [-1, -1]] : Grid).headD []).length + 1)
          [[-1, -1], [-1, -1]] [] = .found out →
        out.length ≤ 2)) :=
  ⟨⟨by decide, by decide⟩,
    claim_C6 false 2 [[-1, -1], [-1, -1]] [[2], [1]] [[1], [1]] 2 2
      (by decide) (by decide)⟩

/-- C7: the search recursion cannot exhaust a fuel budget of one more than the
total cell count: every branch strictly reduces the number of Unknown cells
(each candidate fills the whole chosen line, which still contained an Unknown
cell), so the recursion terminates within depth height * width. -/
theorem claim_C7 (cancel : Bool) (rowClues colClues : List (List Nat))
    (maxSolutions : Nat) (w h : Nat) (g : Grid) (sols : List Grid)
    (hg : WfGrid w h g) :
    dfsAux cancel rowClues colClues maxSolutions (h * w + 1) g sols ≠ .fuelOut := by
  apply dfsAux_ne_fuelOut (h * w + 1) g sols hg
  have h1 := countUnknown_le_total hg
  omega

theorem claim_C7_witness :
    WfGrid 2 2 [[-1, -1], [-1, -1]] ∧
    dfsAux false [[2], [1]] [[1], [1]] 2 (2 * 2 + 1) [[-1, -1], [-1, -1]] [] ≠
      .fuelOut :=
  ⟨by decide,
    claim_C7 false [[2], [1]] [[1], [1]] 2 2 2 [[-1, -1], [-1, -1]] [] (by decide)⟩

/-- C8 counterexample: on the 1 x 10^9 grid whose single all-Unknown row has
clue [1] (and therefore 10^9 candidate fillings) the branch selector returns
no line at all, even though the row still contains an Unknown cell and its
candidate count exceeds 1: the initial best count 10 ** 9 silently excludes
every line with 10^9 or more candidates, so a qualifying line can exist while
the selector reports none. -/
theorem claim_C8_counterexample :
    bestBranchLine [List.replicate (10 ^ 9) UNKNOWN] [[1]]
        (List.replicate (10 ^ 9) [1]) = ("", -1, []) ∧
    UNKNOWN ∈ lineStateAt [List.replicate (10 ^ 9) UNKNOWN] ("row", 0) ∧
    1 < (candsAt (10 ^ 9) 1 [[1]] (List.replicate (10 ^ 9) [1])
        [List.replicate (10 ^ 9) UNKNOWN] ("row", 0)).length := by
  have hrfl : candsAt (10 ^ 9) 1 [[1]] (List.replicate (10 ^ 9) [1])
      [List.replicate (10 ^ 9) UNKNOWN] ("row", 0) =
      lineCandidates (10 ^ 9) [1] (List.replicate (10 ^ 9) UNKNOWN) := rfl
  refine ⟨?_, ?_, ?_⟩
  · unfold bestBranchLine
    simp only
    have hw : (([List.replicate (10 ^ 9) UNKNOWN] : Grid).headD []).length = 10 ^ 9 := by
      rw [List.headD_cons, List.length_replicate]
    have hh : ([List.replicate (10 ^ 9) UNKNOWN] : Grid).length = 1 := rfl
    simp only [hw, hh]
    rcases @branchFold_spec (10 ^ 9) 1 [[1]] (List.replicate (10 ^ 9) [1])
        [List.replicate (10 ^ 9) UNKNOWN] (scanOrder 1 (10 ^ 9)) branchInit with
      ⟨heq, -⟩ | ⟨l1, p, l2, hsplit, hu, h1, hlt, heq, -, -⟩
    · rw [heq]
      rfl
    · exfalso
      have hp : p ∈ scanOrder 1 (10 ^ 9) := by
        rw [hsplit]
        simp
      rcases p with ⟨t, i⟩
      rcases mem_scanOrder.mp hp with ⟨ht, hi⟩ | ⟨ht, hi⟩
      · have ht' : t = "row" := ht
        have hi' : i = 0 := by
          have : i < 1 := hi
          omega
        subst ht'
        subst hi'
        rw [hrfl] at hlt
        rw [lineCandidates_single_block_all_unknown] at hlt
        simp [branchInit] at hlt
      · have ht' : t = "col" := ht
        have hi' : i < 10 ^ 9 := hi
        subst ht'
        have hclue : clueAt [[1]] (List.replicate (10 ^ 9) [1]) ("col", i) = [1] := by
          show (List.replicate (10 ^ 9) ([1] : List Nat)).getD i [] = [1]
          rw [getD_replicate_gen, if_pos hi']
        have hstate : lineStateAt [List.replicate (10 ^ 9) UNKNOWN] ("col", i) =
            [UNKNOWN] := by
          show [(List.replicate (10 ^ 9) UNKNOWN).getD i UNKNOWN] = [UNKNOWN]
          rw [getD_replicate_gen, ite_self]
        have hcc : candsAt (10 ^ 9) 1 [[1]] (List.replicate (10 ^ 9) [1])
            [List.replicate (10 ^ 9) UNKNOWN] ("col", i) =
            lineCandidates 1 [1] [UNKNOWN] := by
          unfold candsAt
          rw [hclue, hstate]
          rfl
        have hone : (lineCandidates 1 [1] [UNKNOWN]).length = 1 := by decide
        rw [hcc, hone] at h1
        omega
  · show UNKNOWN ∈ List.replicate (10 ^ 9) UNKNOWN
    rw [List.mem_replicate]
    exact ⟨by norm_num, rfl⟩
  · rw [hrfl, lineCandidates_single_block_all_unknown]
    norm_num

/-- C8 amended: the branch selector deterministically returns, among all rows
and columns still containing an Unknown cell, the first line in scan order
(all rows before all columns, each axis by ascending index, the first line
achieving the minimum winning ties) whose candidate-set size is the smallest
size strictly greater than 1, considering only lines with fewer than 10 ** 9
candidates (the sentinel initial best count of the source); it returns the
none value ("", -1, ()) when no line qualifies under that bound. -/
theorem claim_C8_amended (g : Grid) (rowClues colClues : List (List Nat)) :
    ((∀ p ∈ scanOrder g.length (g.headD []).length,
        ¬(UNKNOWN ∈ lineStateAt g p ∧
          1 < (candsAt (g.headD []).length g.length rowClues colClues g p).length ∧
          (candsAt (g.headD []).length g.length rowClues colClues g p).length < 10 ^ 9)) →
      bestBranchLine g rowClues colClues = ("", -1, [])) ∧
    ((∃ p ∈ scanOrder g.length (g.headD []).length,
        UNKNOWN ∈ lineStateAt g p ∧
        1 < (candsAt (g.headD []).length g.length rowClues colClues g p).length ∧
        (candsAt (g.headD []).length g.length rowClues colClues g p).length < 10 ^ 9) →
      ∃ l1 p l2, scanOrder g.length (g.headD []).length = l1 ++ p :: l2 ∧
        UNKNOWN ∈ lineStateAt g p ∧
        1 < (candsAt (g.headD []).length g.length rowClues colClues g p).length ∧
        bestBranchLine g rowClues colClues =
          (p.1, (p.2 : Int),
            candsAt (g.headD []).length g.length rowClues colClues g p) ∧
        (∀ q ∈ scanOrder g.length (g.headD []).length,
          UNKNOWN ∈ lineStateAt g q →
          1 < (candsAt (g.headD []).length g.length rowClues colClues g q).length →
          (candsAt (g.headD []).length g.length rowClues colClues g p).length ≤
            (candsAt (g.headD []).length g.length rowClues colClues g q).length) ∧
        (∀ q ∈ l1,
          UNKNOWN ∈ lineStateAt g q →
          1 < (candsAt (g.headD []).length g.length rowClues colClues g q).length →
          (candsAt (g.headD []).length g.length rowClues colClues g p).length <
            (candsAt (g.headD []).length g.length rowClues colClues g q).length)) := by
  constructor
  · intro hnone
    unfold bestBranchLine
    simp only
    rcases @branchFold_spec (g.headD []).length g.length rowClues colClues g
        (scanOrder g.length (g.headD []).length) branchInit with
      ⟨heq, -⟩ | ⟨l1, p, l2, hsplit, hu, h1, hlt, heq, -, -⟩
    · rw [heq]
      rfl
    · exfalso
      refine hnone p (by rw [hsplit]; simp) ⟨hu, h1, ?_⟩
      simpa [branchInit] using hlt
  · rintro ⟨p0, hp0, hu0, h10, hlt0⟩
    rcases @branchFold_spec (g.headD []).length g.length rowClues colClues g
        (scanOrder g.length (g.headD []).length) branchInit with
      ⟨-, hmin⟩ | ⟨l1, p, l2, hsplit, hu, h1, hlt, heq, hall, hfirst⟩
    · exfalso
      have hge := hmin p0 hp0 hu0 h10
      simp only [branchInit] at hge
      omega
    · refine ⟨l1, p, l2, hsplit, hu, h1, ?_, hall, hfirst⟩
      unfold bestBranchLine
      simp only
      rw [heq]

theorem claim_C8_amended_witness :
    (∃ p ∈ scanOrder ([[-1, -1], [-1, -1]] : Grid).length
        (([[-1, -1], [-1, -1]] : Grid).headD []).length,
      UNKNOWN ∈ lineStateAt [[-1, -1], [-1, -1]] p ∧
      1 < (candsAt (([[-1, -1], [-1, -1]] : Grid).headD []).length
          ([[-1, -1], [-1, -1]] : Grid).length [[1], [1]] [[1], [1]]
          [[-1, -1], [-1, -1]] p).length ∧
      (candsAt (([[-1, -1], [-1, -1]] : Grid).headD []).length
          ([[-1, -1], [-1, -1]] : Grid).length [[1], [1]] [[1], [1]]
          [[-1, -1], [-1, -1]] p).length < 10 ^ 9) ∧
    (∃ l1 p l2, scanOrder ([[-1, -1], [-1, -1]] : Grid).length
        (([[-1, -1], [-1, -1]] : Grid).headD []).length = l1 ++ p :: l2 ∧
      UNKNOWN ∈ lineStateAt [[-1, -1], [-1, -1]] p ∧
      1 < (candsAt (([[-1, -1], [-1, -1]] : Grid).headD []).length
          ([[-1, -1], [-1, -1]] : Grid).length [[1], [1]] [[1], [1]]
          [[-1, -1], [-1, -1]] p).length ∧
      bestBranchLine [[-1, -1], [-1, -1]] [[1], [1]] [[1], [1]] =
        (p.1, (p.2 : Int),
          candsAt (([[-1, -1], [-1, -1]] : Grid).headD []).length
            ([[-1, -1], [-1, -1]] : Grid).length [[1], [1]] [[1], [1]]
            [[-1, -1], [-1, -1]] p) ∧
      (∀ q ∈ scanOrder ([[-1, -1], [-1, -1]] : Grid).length
          (([[-1, -1], [-1, -1]] : Grid).headD []).length,
        UNKNOWN ∈ lineStateAt [[-1, -1], [-1, -1]] q →
        1 < (candsAt (([[-1, -1], [-1, -1]] : Grid).headD []).length
            ([[-1, -1], [-1, -1]] : Grid).length [[1], [1]] [[1], [1]]
            [[-1, -1], [-1, -1]] q).length →
        (candsAt (([[-1, -1], [-1, -1]] : Grid).headD []).length
            ([[-1, -1], [-1, -1]] : Grid).length [[1], [1]] [[1], [1]]
            [[-1, -1], [-1, -1]] p).length ≤
          (candsAt (([[-1, -1], [-1, -1]] : Grid).headD []).length
              ([[-1, -1], [-1, -1]] : Grid).length [[1], [1]] [[1], [1]]
              [[-1, -1], [-1, -1]] q).length) ∧
      (∀ q ∈ l1,
        UNKNOWN ∈ lineStateAt [[-1, -1], [-1, -1]] q →
        1 < (candsAt (([[-1, -1], [-1, -1]] : Grid).headD []).length
            ([[-1, -1], [-1, -1]] : Grid).length [[1], [1]] [[1], [1]]
            [[-1, -1], [-1, -1]] q).length →
        (candsAt (([[-1, -1], [-1, -1]] : Grid).headD []).length
            ([[-1, -1], [-1, -1]] : Grid).length [[1], [1]] [[1], [1]]
            [[-1, -1], [-1, -1]] p).length <
          (candsAt (([[-1, -1], [-1, -1]] : Grid).headD []).length
              ([[-1, -1], [-1, -1]] : Grid).length [[1], [1]] [[1], [1]]
              [[-1, -1], [-1, -1]] q).length)) :=
  ⟨by decide,
    (claim_C8_amended [[-1, -1], [-1, -1]] [[1], [1]] [[1], [1]]).2 (by decide)⟩

/-- C9: a solve invocation never mutates the caller's grid: in the row-store
model of Python's aliasing, every row object that existed before the call
keeps its value, and in particular the caller's grid dereferences to the same
value after solveStore returns (the engine works only on freshly allocated
copies). -/
theorem claim_C9 (cancel : Bool) (maxSolutions : Nat) (σ : RowStore)
    (ref : GridRef) (rowClues colClues : List (List Nat))
    (href : ∀ i ∈ ref, i < σ.length) :
    derefGrid ((solveStore cancel maxSolutions σ ref rowClues colClues).1) ref =
      derefGrid σ ref ∧
    ∀ j, j < σ.length →
      ((solveStore cancel maxSolutions σ ref rowClues colClues).1).getD j [] =
        σ.getD j [] := by
  refine ⟨?_, solveStore_frame cancel maxSolutions σ ref rowClues colClues⟩
  unfold derefGrid
  have hmap : ∀ is : List Nat, (∀ i ∈ is, i < σ.length) →
      is.map (fun i =>
          ((solveStore cancel maxSolutions σ ref rowClues colClues).1).getD i []) =
        is.map (fun i => σ.getD i []) := by
    intro is his
    induction is with
    | nil => rfl
    | cons a as ih =>
        simp only [List.map_cons]
        rw [solveStore_frame cancel maxSolutions σ ref rowClues colClues a
            (his a (by simp)),
          ih (fun i hi => his i (by simp [hi]))]
  exact hmap ref href

theorem claim_C9_witness :
    (∀ i ∈ ([0] : GridRef), i < ([[-1]] : RowStore).length) ∧
    (derefGrid ((solveStore false 2 [[-1]] [0] [[1]] [[1]]).1) [0] =
        derefGrid [[-1]] [0] ∧
      ∀ j, j < ([[-1]] : RowStore).length →
        ((solveStore false 2 [[-1]] [0] [[1]] [[1]]).1).getD j [] =
          ([[-1]] : RowStore).getD j []) :=
  ⟨by decide, claim_C9 false 2 [[-1]] [0] [[1]] [[1]] (by decide)⟩

/-- C10: when propagation meets a line with zero candidates it fails without
rolling back: for the run-to-fixpoint loop and the single pass alike, the grid
a failed call leaves behind still carries every determination it applied
earlier in the invocation (determined cells of the input persist, and newly
determined cells are kept); the concrete 2 x 2 instance shows a failed call
returning a grid different from its input, so failure is not atomic. -/
theorem claim_C10 :
    (∀ (cancel : Bool) (w h : Nat) (g : Grid) (rowClues colClues : List (List Nat))
        (g' : Grid) (n : Nat),
      WfGrid w h g → propagate cancel g rowClues colClues = .done false g' n →
      PreservesFixed g g') ∧
    (∀ (w h : Nat) (g : Grid) (rowClues colClues : List (List Nat))
        (g' : Grid) (k : Nat),
      WfGrid w h g → propagateOnce g rowClues colClues = (false, g', k) →
      PreservesFixed g g') ∧
    propagate false [[-1, -1], [-1, -1]] [[2], [2]] [[2], [1]] =
      .done false [[1, 1], [1, 1]] 1 ∧
    ([[1, 1], [1, 1]] : Grid) ≠ [[-1, -1], [-1, -1]] := by
  refine ⟨?_, ?_, by decide, by decide⟩
  · intro cancel w h g rowClues colClues g' n hg hrun
    exact (propagate_done_spec hg hrun).2.1
  · intro w h g rowClues colClues g' k hg hrun
    unfold propagateOnce at hrun
    exact (fullPass_spec (wfGrid_self_dims hg) hrun).2.1

theorem claim_C10_witness :
    (WfGrid 2 2 [[-1, -1], [-1, -1]] ∧
      propagate false [[-1, -1], [-1, -1]] [[2], [2]] [[2], [1]] =
        .done false [[1, 1], [1, 1]] 1) ∧
    PreservesFixed [[-1, -1], [-1, -1]] [[1, 1], [1, 1]] :=
  ⟨⟨by decide, by decide⟩,
    claim_C10.1 false 2 2 [[-1, -1], [-1, -1]] [[2], [2]] [[2], [1]]
      [[1, 1], [1, 1]] 1 (by decide) (by decide)⟩

end Nonogram
